import Mathlib

/-!
Verification development for the FitGenius client-side engine.

Shallow embedding of the state-owning core of the application
(src/App.tsx, src/components/PlanDisplay.tsx,
src/components/ProgressTracker.tsx, type declarations in src/unnamed/part_002):
the completion tracker, the plan mutator used by drag-and-drop, the
progress ledger, the rest-duration parser, the persistence layer and the
plan-generation transition.

JavaScript strings are modelled as lists of characters (`Str`); the string
builtins the source uses (split, replace with a string pattern, parseInt,
template interpolation of a number, toLowerCase, regex search) are modelled
by explicit executable functions below, each documented at its definition.
-/

/-- Model of a JavaScript string: a list of characters. -/
abbrev Str := List Char

/-- Convert a Lean string literal into the `Str` model. -/
def str (s : String) : Str := s.data

/-! ## Data model, from the type declarations (src/unnamed/part_002). -/

/-- Enum Gender (src/unnamed/part_002 lines 1-5). -/
inductive Gender where
  | male
  | female
  | other
deriving DecidableEq

/-- Enum Goal (src/unnamed/part_002 lines 7-13). -/
inductive Goal where
  | loseWeight
  | buildMuscle
  | improveEndurance
  | flexibility
  | generalFitness
deriving DecidableEq

/-- Enum ExperienceLevel (src/unnamed/part_002 lines 15-19). -/
inductive ExperienceLevel where
  | beginner
  | intermediate
  | advanced
deriving DecidableEq

/-- Enum Equipment (src/unnamed/part_002 lines 21-33). -/
inductive Equipment where
  | bodyweightOnly
  | yogaMat
  | jumpRope
  | dumbbells
  | kettlebell
  | resistanceBands
  | pullUpBar
  | bench
  | foamRoller
  | barbell
  | fullHomeGym
deriving DecidableEq

/-- Interface UserProfile (src/unnamed/part_002 lines 35-46); the numeric
fields are modelled as integers. -/
structure UserProfile where
  age : Int
  height : Int
  weight : Int
  gender : Gender
  goal : Goal
  level : ExperienceLevel
  equipment : List Equipment
  daysPerWeek : Int
  durationPerSession : Int
  injuries : Option Str
deriving DecidableEq

/-- Interface Exercise (src/unnamed/part_002 lines 48-56). -/
structure Exercise where
  name : Str
  sets : Str
  reps : Str
  rest : Str
  notes : Option Str
  instructions : Option Str
  videoUrl : Option Str
deriving DecidableEq

/-- Interface DayPlan (src/unnamed/part_002 lines 58-63). -/
structure DayPlan where
  dayName : Str
  focus : Str
  exercises : List Exercise
  estimatedDuration : Str
deriving DecidableEq

/-- Interface WeeklyPlan (src/unnamed/part_002 lines 65-69). -/
structure WeeklyPlan where
  weekNumber : Int
  focus : Str
  schedule : List DayPlan
deriving DecidableEq

/-- Interface WorkoutCurriculum (src/unnamed/part_002 lines 71-77). -/
structure WorkoutCurriculum where
  programName : Str
  description : Str
  weeks : List WeeklyPlan
  nutritionTips : List Str
  startDate : Option Str
deriving DecidableEq

/-- Interface ProgressEntry (src/unnamed/part_002 lines 79-82); the weight
is modelled as an integer. -/
structure ProgressEntry where
  date : Str
  weight : Int
deriving DecidableEq

/-- Interface WorkoutLog (src/unnamed/part_002 lines 84-92). -/
structure WorkoutLog where
  id : Str
  date : Str
  dayId : Str
  dayName : Str
  focus : Str
  duration : Str
  notes : Option Str
deriving DecidableEq

/-- The in-memory state owned by the App component (src/App.tsx
lines 40-84): the useState cells that the handlers read and write. -/
structure AppState where
  profile : Option UserProfile
  plan : Option WorkoutCurriculum
  completedDays : List Str
  completedExercises : List Str
  progressHistory : List ProgressEntry
  workoutLogs : List WorkoutLog
  loading : Bool
  error : Option Str
deriving DecidableEq

/-- A JavaScript runtime exception raised by a handler (the only one the
embedded handlers can raise is a TypeError from calling a method on
undefined). -/
inductive JsError where
  | typeError
deriving DecidableEq

/-! ## Models of the JavaScript string builtins used by the source. -/

/-- Model of the character class matched by the regex `\s` and skipped by
parseInt, restricted to the whitespace characters that occur in practice. -/
def isWSChar (c : Char) : Bool :=
  c == ' ' || c == '\t' || c == '\n' || c == '\r'

/-- Model of the regex character class `\w` (ASCII word character). -/
def isWordCharB (c : Char) : Bool :=
  c.isAlphanum || c == '_'

/-- Model of `String.prototype.split(sep)` for a single-character
separator: `"a-b".split('-') = ["a","b"]`, `"abc".split('-') = ["abc"]`,
`"".split('-') = [""]`, `"a-".split('-') = ["a",""]`. -/
def splitOnChar (sep : Char) : Str → List Str
  | [] => [[]]
  | c :: cs =>
    if c = sep then [] :: splitOnChar sep cs
    else
      match splitOnChar sep cs with
      | [] => [[c]]
      | t :: ts => (c :: t) :: ts

/-- Whether `pat` is an initial segment of `s` (used to locate a substring
occurrence, as JavaScript split does). -/
def startsWithL : Str → Str → Bool
  | [], _ => true
  | _ :: _, [] => false
  | p :: ps, c :: cs => p == c && startsWithL ps cs

/-- Split `s` around the first occurrence of the substring `pat`:
`some (before, after)` when `pat` occurs, `none` otherwise. -/
def findSub (pat : Str) : Str → Option (Str × Str)
  | [] => if startsWithL pat [] then some ([], []) else none
  | c :: cs =>
    if startsWithL pat (c :: cs) then some ([], (c :: cs).drop pat.length)
    else (findSub pat cs).map (fun pr => (c :: pr.1, pr.2))

/-- Model of `s.split(pat)[0]` for a substring pattern: the part of `s`
before the first occurrence of `pat`, or all of `s` when `pat` does not
occur (JavaScript split always yields a nonempty array). -/
def takeBeforeSub (pat : Str) (s : Str) : Str :=
  match findSub pat s with
  | none => s
  | some pr => pr.1

/-- Model of `s.replace(pat, '')` for a single-character string pattern:
JavaScript replace with a string pattern removes only the first
occurrence. -/
def removeFirstChar (pat : Char) : Str → Str
  | [] => []
  | c :: cs => if c = pat then cs else c :: removeFirstChar pat cs

/-- Numeric value of a string of decimal digits (most significant first),
as accumulated by parseInt once the digit run is isolated. -/
def digitsVal (s : Str) : Nat :=
  s.foldl (fun a c => 10 * a + (c.toNat - 48)) 0

/-- Leading decimal-digit run of a string, as consumed by parseInt:
`none` when the string does not start with a digit (parseInt yields NaN). -/
def digitsPrefix (s : Str) : Option Nat :=
  match s.takeWhile Char.isDigit with
  | [] => none
  | ds => some (digitsVal ds)

/-- Model of the JavaScript `parseInt(s)` builtin in base 10: skip leading
whitespace, read an optional sign and then a maximal run of decimal
digits; `none` models the NaN result when no digit follows.  (The archaic
automatic hexadecimal mode for strings starting `0x` is not modelled; the
indices parsed here are decimal.) -/
def parseIntJS (s : Str) : Option Int :=
  match s.dropWhile isWSChar with
  | '-' :: rest => (digitsPrefix rest).map (fun n => -(n : Int))
  | '+' :: rest => (digitsPrefix rest).map (fun n => (n : Int))
  | rest => (digitsPrefix rest).map (fun n => (n : Int))

/-- Model of JavaScript array indexing `l[i]` where `i` is the result of
parseInt: `undefined` (none) on NaN, a negative index or an out-of-range
index. -/
def jsIndex (l : List α) (i : Option Int) : Option α :=
  match i with
  | none => none
  | some n => if n < 0 then none else l.get? n.toNat

/-- Decimal digit character, as produced by JavaScript number-to-string
conversion for a digit value below ten. -/
def digitCharF (n : Nat) : Char :=
  if n = 0 then '0'
  else if n = 1 then '1'
  else if n = 2 then '2'
  else if n = 3 then '3'
  else if n = 4 then '4'
  else if n = 5 then '5'
  else if n = 6 then '6'
  else if n = 7 then '7'
  else if n = 8 then '8'
  else '9'

/-- Accumulator loop of decimal number-to-string conversion, structurally
recursive on a fuel argument so that it evaluates inside the kernel; any
fuel `f` with `0 < f` and `n < 10 ^ f` computes the representation. -/
def natStrF : Nat → Nat → Str → Str
  | 0, _, acc => acc
  | fuel + 1, n, acc =>
    if n < 10 then digitCharF n :: acc
    else natStrF fuel (n / 10) (digitCharF (n % 10) :: acc)

/-- Model of JavaScript template interpolation of a natural number
(`${exIdx}`): its decimal representation. -/
def natStr (n : Nat) : Str := natStrF (n + 1) n []

/-- Loop of the JavaScript `new Set(...)` iteration: keep the first
occurrence of each element, dropping later duplicates; `seen` holds the
elements already emitted. -/
def dedupAux (seen : List Str) : List Str → List Str
  | [] => []
  | x :: xs =>
    if x ∈ seen then dedupAux seen xs
    else x :: dedupAux (x :: seen) xs

/-- Model of `Array.from(new Set([...a, ...b]))` (src/App.tsx line 181):
the concatenation of the two arrays with duplicates removed, first
occurrences kept in order. -/
def jsSetUnion (a b : List Str) : List Str :=
  dedupAux [] (a ++ b)

/-- Model of `c.toLowerCase()` character-wise (ASCII). -/
def toLowerStr (s : Str) : Str := s.map Char.toLower

/-! ## Identifier handling shared by the completion handlers
(src/App.tsx lines 162-219). -/

/-- Model of destructuring `const [wStr, dStr] = dayId.split('-')`
(src/App.tsx lines 172, 202): `some (wStr, dStr)` when the split yields at
least two parts; `none` models `dStr === undefined`, in which case the
subsequent `dStr.replace` raises a TypeError. -/
def daySplit (dayId : Str) : Option (Str × Str) :=
  let parts := splitOnChar '-' dayId
  match parts.get? 1 with
  | none => none
  | some dStr => some (parts.headD [], dStr)

/-- Model of `plan.weeks[wIdx]?.schedule[dIdx]` with
`wIdx = parseInt(wStr.replace('w',''))` and
`dIdx = parseInt(dStr.replace('d',''))` (src/App.tsx lines 173-176,
203-206). -/
def resolveDay (p : WorkoutCurriculum) (wStr dStr : Str) : Option DayPlan :=
  match jsIndex p.weeks (parseIntJS (removeFirstChar 'w' wStr)) with
  | none => none
  | some wk => jsIndex wk.schedule (parseIntJS (removeFirstChar 'd' dStr))

/-- The literal `-ex` used by the positional exercise identifiers. -/
def sEx : Str := str ("-ex")

/-- Model of the template `` `${dayId}-ex${exIdx}` `` building one
positional exercise identifier. -/
def mkExId (dayId : Str) (exIdx : Nat) : Str := dayId ++ sEx ++ natStr exIdx

/-- Model of `dayPlan.exercises.map((_, exIdx) => ...)`
(src/App.tsx lines 178, 208): the identifiers of the `n` exercises of the
day `dayId`, in index order. -/
def exerciseIdsOf (dayId : Str) (n : Nat) : List Str :=
  (List.range n).map (mkExId dayId)

/-- Model of `exerciseId.split('-ex')[0]` (src/App.tsx lines 200-201): the
owning day identifier recovered from an exercise identifier. -/
def dayIdOf (exerciseId : Str) : Str := takeBeforeSub sEx exerciseId

/-! ## The completion tracker (src/App.tsx lines 162-219). -/

/-- Embedding of `handleToggleDayComplete` (src/App.tsx lines 162-188).
Flips membership of `dayId` in `completedDays` (append when absent,
filter out when present), then, when a plan is loaded, parses `dayId`;
a day identifier without a dash makes `dStr` undefined and the call
raises a TypeError (`Except.error`).  When the parsed indices resolve to a
day of the plan, the full cascade is applied to `completedExercises`:
a set union with all the identifiers of the exercises of the day when the
day becomes complete, a filter removing all of them when it becomes
incomplete. -/
def handleToggleDayComplete (st : AppState) (dayId : Str) :
    Except JsError AppState :=
  let isNowComplete := dayId ∉ st.completedDays
  let cd' := if isNowComplete then st.completedDays ++ [dayId]
             else st.completedDays.filter (fun id => id ≠ dayId)
  match st.plan with
  | none => .ok { st with completedDays := cd' }
  | some p =>
    match daySplit dayId with
    | none => .error JsError.typeError
    | some (wStr, dStr) =>
      match resolveDay p wStr dStr with
      | none => .ok { st with completedDays := cd' }
      | some dayPlan =>
        let exIds := exerciseIdsOf dayId dayPlan.exercises.length
        let ce' := if isNowComplete then
                     jsSetUnion st.completedExercises exIds
                   else
                     st.completedExercises.filter (fun id => id ∉ exIds)
        .ok { st with completedDays := cd', completedExercises := ce' }

/-- Embedding of `handleToggleExerciseComplete` (src/App.tsx
lines 190-219).  Flips membership of `exerciseId` in
`completedExercises`; when the toggle is a completion and a plan is
loaded, the owning day is looked up and, when resolvable, the day
identifier is returned as the pending-completion signal exactly when
every exercise of the day is complete after the toggle and the day is not
already in `completedDays`.  `completedDays` is never written.  A day
part without a dash raises a TypeError on the completion path. -/
def handleToggleExerciseComplete (st : AppState) (exerciseId : Str) :
    Except JsError (AppState × Option Str) :=
  if exerciseId ∈ st.completedExercises then
    .ok ({ st with completedExercises :=
             st.completedExercises.filter (fun id => id ≠ exerciseId) }, none)
  else
    let st' := { st with completedExercises :=
                   st.completedExercises ++ [exerciseId] }
    match st.plan with
    | none => .ok (st', none)
    | some p =>
      let dayId := dayIdOf exerciseId
      match daySplit dayId with
      | none => .error JsError.typeError
      | some (wStr, dStr) =>
        match resolveDay p wStr dStr with
        | none => .ok (st', none)
        | some dayPlan =>
          let allIds := exerciseIdsOf dayId dayPlan.exercises.length
          if (∀ id ∈ allIds, id = exerciseId ∨ id ∈ st.completedExercises)
              ∧ dayId ∉ st.completedDays then
            .ok (st', some dayId)
          else
            .ok (st', none)

/-! ## The plan-generation transition (src/App.tsx lines 112-145). -/

/-- The generic error message surfaced when generation fails
(src/App.tsx line 141). -/
def genericGenerationError : Str :=
  str ("Failed to generate plan. Please try again. Ensure you have a valid API Key.")

/-- Embedding of `handleGenerate` (src/App.tsx lines 112-145), as the
net state transition of one complete run.  The awaited provider call is
abstracted by its outcome `result`; the wall-clock computation of the
Monday of next week is abstracted by its ISO rendering `nextMondayIso`.
The profile is committed before the provider call, so it holds the
submitted profile whatever the outcome; on success the plan is replaced
(with the start date stamped in) and the completion sets and workout logs
are cleared; on failure those cells are left as they were and the generic
error message is set. -/
def handleGenerate (st : AppState) (userProfile : UserProfile)
    (result : Except Str WorkoutCurriculum) (nextMondayIso : Str) :
    AppState :=
  match result with
  | .ok generatedPlan =>
    { st with
      profile := some userProfile
      loading := false
      error := none
      plan := some { generatedPlan with startDate := some nextMondayIso }
      completedDays := []
      completedExercises := []
      workoutLogs := [] }
  | .error _ =>
    { st with
      profile := some userProfile
      loading := false
      error := some genericGenerationError }

/-! ## The progress ledger (src/App.tsx lines 221-226,
src/components/ProgressTracker.tsx lines 39-41). -/

/-- Monotone numeric key modelling `new Date(s).getTime()` for the
calendar-date strings (`YYYY-MM-DD`) this application stores: the date
comparator of the sort only uses the order of these keys, and on such
strings this key is a strictly increasing rescaling of the epoch time. -/
def dateKey (s : Str) : Nat :=
  match splitOnChar '-' s with
  | y :: m :: d :: _ => digitsVal y * 10000 + digitsVal m * 100 + digitsVal d
  | y :: m :: _ => digitsVal y * 10000 + digitsVal m * 100
  | y :: _ => digitsVal y
  | [] => 0

/-- The comparator relation of the ledger sort: ascending date key. -/
def dateLe (a b : ProgressEntry) : Prop := dateKey a.date ≤ dateKey b.date

instance : DecidableRel dateLe := fun a b =>
  inferInstanceAs (Decidable (dateKey a.date ≤ dateKey b.date))

instance : IsTotal ProgressEntry dateLe :=
  ⟨fun a b => Nat.le_total (dateKey a.date) (dateKey b.date)⟩

instance : IsTrans ProgressEntry dateLe :=
  ⟨fun _ _ _ h h2 => Nat.le_trans h h2⟩

/-- Embedding of `handleAddProgress` (src/App.tsx lines 221-226): append
the entry and re-sort the whole collection ascending by date.
`Array.prototype.sort` is stable, and a stable sort is modelled by
insertion sort with the same comparator. -/
def handleAddProgress (st : AppState) (entry : ProgressEntry) : AppState :=
  { st with progressHistory :=
      List.insertionSort dateLe (st.progressHistory ++ [entry]) }

/-- Embedding of `latestWeight` (src/components/ProgressTracker.tsx
line 39): the weight of the last entry, `none` when the ledger is empty. -/
def latestWeight (entries : List ProgressEntry) : Option Int :=
  entries.getLast?.map (fun e => e.weight)

/-- Embedding of `startWeight` (src/components/ProgressTracker.tsx
line 40): the weight of the first entry, `none` when the ledger is empty. -/
def startWeight (entries : List ProgressEntry) : Option Int :=
  entries.head?.map (fun e => e.weight)

/-- Embedding of `weightChange` (src/components/ProgressTracker.tsx
line 41): `latestWeight && startWeight ? (latestWeight - startWeight).toFixed(1) : 0`.
`some d` models the numeric string produced by toFixed (exact on the
integer weights modelled here); `none` models the sentinel `0` taken when
either accessor is null or has the falsy weight `0`. -/
def weightChange (entries : List ProgressEntry) : Option Int :=
  match latestWeight entries, startWeight entries with
  | some l, some s => if l ≠ 0 ∧ s ≠ 0 then some (l - s) else none
  | _, _ => none

/-! ## The plan mutator used by drag-and-drop
(src/components/PlanDisplay.tsx lines 254-288). -/

/-- The drag source recorded by `handleDragStart`
(src/components/PlanDisplay.tsx line 114). -/
structure DragItem where
  weekIdx : Nat
  dayIdx : Nat
  exIdx : Nat
deriving DecidableEq

/-- Model of `l.splice(i, 1)` for an in-range index: the list without the
element at position `i`. -/
def spliceRemove (l : List α) (i : Nat) : List α :=
  l.take i ++ l.drop (i + 1)

/-- Model of `l.splice(j, 0, x)`: insert `x` at position `j`, clamped to
the end of the list as JavaScript splice does. -/
def spliceInsert (l : List α) (j : Nat) (x : α) : List α :=
  l.take j ++ x :: l.drop j

/-- The two splices of `handleDrop` (src/components/PlanDisplay.tsx
lines 283-284): remove the element at `i` and reinsert it at `j`.  An
out-of-range `i` is modelled as the identity (the source would splice in
`undefined` there, which the typed model excludes; the claims are about
in-range moves). -/
def moveItem (l : List α) (i j : Nat) : List α :=
  match l.get? i with
  | none => l
  | some x => spliceInsert (spliceRemove l i) j x

/-- Replace the element at an index when it exists (the model of mutating
one slot of a deep-copied array). -/
def listModify (l : List α) (i : Nat) (f : α → α) : List α :=
  match l.get? i with
  | none => l
  | some x => l.set i (f x)

/-- Embedding of `handleDrop` (src/components/PlanDisplay.tsx
lines 265-288), returning the plan snapshot passed to `onUpdatePlan`.
The source deep-copies the plan (`JSON.parse(JSON.stringify(plan))`)
before splicing, so the snapshot held by the caller is never mutated; in
this value semantics the input `plan` is unchanged by construction and
the function returns the new snapshot.  Cross-week or cross-day drops and
drops onto the source index leave the plan as it was. -/
def handleDrop (plan : WorkoutCurriculum) (draggedItem : Option DragItem)
    (targetWeekIdx targetDayIdx targetExIdx : Nat) : WorkoutCurriculum :=
  match draggedItem with
  | none => plan
  | some di =>
    if di.weekIdx ≠ targetWeekIdx ∨ di.dayIdx ≠ targetDayIdx then plan
    else if di.exIdx = targetExIdx then plan
    else
      { plan with weeks :=
          listModify plan.weeks targetWeekIdx (fun wk =>
            { wk with schedule :=
                listModify wk.schedule targetDayIdx (fun day =>
                  { day with exercises :=
                      moveItem day.exercises di.exIdx targetExIdx }) }) }

/-- The exercise list of a given week and day of a plan, when present. -/
def exercisesAt (p : WorkoutCurriculum) (w d : Nat) : Option (List Exercise) :=
  match p.weeks.get? w with
  | none => none
  | some wk => (wk.schedule.get? d).map (fun day => day.exercises)

/-! ## The rest-duration parser (src/components/PlanDisplay.tsx
lines 62-70).

The source searches the lowercased string with the regexes
`/(\d+)\s*(?:min|m\b)/` and `/(\d+)/`.  Because a shortened digit run or
whitespace run always leaves a digit or a whitespace character in front
of the required `m`, backtracking into `\d+` or `\s*` can never succeed,
so the leftmost regex match is computed by the deterministic scanner
below: at each starting position take the maximal digit run, skip the
maximal whitespace run and test for the unit. -/

/-- Test for the regex alternative `(?:min|m\b)` at the head of the
remaining text, trying the alternatives in regex order: the literal
`min`, else `m` followed by the end of the string or a non-word
character (the word boundary after `m`). -/
def unitTestB (rest : Str) : Bool :=
  if startsWithL (str ("min")) rest then true
  else
    match rest with
    | c :: t =>
      if c = 'm' then
        match t with
        | [] => true
        | c2 :: _ => !isWordCharB c2
      else false
    | [] => false

/-- Attempt of the minutes regex at the current position: a digit run,
optional whitespace, then the minute unit; yields the value of the digit
group. -/
def headMin : Str → Option Nat
  | [] => none
  | c :: cs =>
    if c.isDigit then
      if unitTestB (((c :: cs).dropWhile Char.isDigit).dropWhile isWSChar)
      then some (digitsVal ((c :: cs).takeWhile Char.isDigit))
      else none
    else none

/-- Leftmost match of the minutes regex `/(\d+)\s*(?:min|m\b)/`. -/
def scanMin : Str → Option Nat
  | [] => none
  | c :: cs =>
    match headMin (c :: cs) with
    | some n => some n
    | none => scanMin cs

/-- Attempt of the integer regex at the current position: a maximal digit
run. -/
def headInt : Str → Option Nat
  | [] => none
  | c :: cs =>
    if c.isDigit then some (digitsVal ((c :: cs).takeWhile Char.isDigit))
    else none

/-- Leftmost match of the integer regex `/(\d+)/`. -/
def scanInt : Str → Option Nat
  | [] => none
  | c :: cs =>
    match headInt (c :: cs) with
    | some n => some n
    | none => scanInt cs

/-- Embedding of `parseRestTime` (src/components/PlanDisplay.tsx
lines 62-70): the empty (falsy) string yields 60; a minutes match yields
its number times 60; otherwise an embedded integer yields that integer;
otherwise 60. -/
def parseRestTime (restStr : Str) : Nat :=
  if restStr = [] then 60
  else
    match scanMin (toLowerStr restStr) with
    | some n => n * 60
    | none =>
      match scanInt (toLowerStr restStr) with
      | some n => n
      | none => 60

/-! Declarative reading of the two regexes, written from the wording of
the specification (a number followed by a minute unit; any embedded
integer), to be proved equivalent to the scanner the embedding uses. -/

/-- The minute unit of the specification at the head of `rest`: the
literal `min`, or a bare `m` at a word boundary. -/
def minuteUnitAt (rest : Str) : Prop :=
  (∃ t, rest = 'm' :: 'i' :: 'n' :: t) ∨
  (∃ t, rest = 'm' :: t ∧ (t = [] ∨ ∃ c t2, t = c :: t2 ∧ isWordCharB c = false))

/-- A number followed by optional whitespace and a minute unit, at the
head of `s`, with value `n`. -/
def minuteMatchAt (s : Str) (n : Nat) : Prop :=
  ∃ ds ws rest, s = ds ++ ws ++ rest ∧ ds ≠ [] ∧
    (∀ c ∈ ds, c.isDigit = true) ∧ (∀ c ∈ ws, isWSChar c = true) ∧
    minuteUnitAt rest ∧ n = digitsVal ds

/-- The leftmost minute match of `s` has value `n`: some suffix of `s`
matches with value `n` and no earlier suffix matches at all. -/
def minuteScanSpec (s : Str) (n : Nat) : Prop :=
  ∃ k, minuteMatchAt (s.drop k) n ∧
    ∀ k2 m, k2 < k → ¬ minuteMatchAt (s.drop k2) m

/-- A maximal digit run at the head of `s` with value `n`. -/
def intMatchAt (s : Str) (n : Nat) : Prop :=
  ∃ ds rest, s = ds ++ rest ∧ ds ≠ [] ∧ (∀ c ∈ ds, c.isDigit = true) ∧
    (rest = [] ∨ ∃ c t, rest = c :: t ∧ c.isDigit = false) ∧ n = digitsVal ds

/-- The leftmost embedded integer of `s` is `n`. -/
def intScanSpec (s : Str) (n : Nat) : Prop :=
  ∃ k, intMatchAt (s.drop k) n ∧
    ∀ k2 m, k2 < k → ¬ intMatchAt (s.drop k2) m

/-! ## The persistence layer (src/App.tsx lines 40-110,
src/components/PlanDisplay.tsx lines 116-131). -/

/-- Model of the device-local key/value store together with its failure
modes: `available = false` models a missing or forbidden backing store
(getItem and setItem throw), `quotaFull = true` models an exhausted quota
(setItem throws). -/
structure Store where
  entries : List (Str × Str)
  available : Bool
  quotaFull : Bool
deriving DecidableEq

/-- Model of `localStorage.getItem(key)`: the stored text or `none`,
raising when the backing store is unavailable. -/
def storeGet (store : Store) (key : Str) : Except Str (Option Str) :=
  if store.available then
    .ok ((store.entries.find? (fun e => e.1 = key)).map (fun e => e.2))
  else
    .error (str ("SecurityError"))

/-- Model of `localStorage.setItem(key, value)`: writes the text, raising
when the backing store is unavailable or the quota is exhausted. -/
def storeSet (store : Store) (key value : Str) : Except Str Store :=
  if !store.available then .error (str ("SecurityError"))
  else if store.quotaFull then .error (str ("QuotaExceededError"))
  else
    .ok { store with entries :=
            (key, value) :: store.entries.filter (fun e => e.1 ≠ key) }

/-- Embedding of the guarded load pattern of every useState initializer
(src/App.tsx lines 40-80, src/components/PlanDisplay.tsx lines 116-121):
`try { const saved = getItem(key); return saved ? JSON.parse(saved) : dflt }
catch { return dflt }`.  `parse` models `JSON.parse` composed with the
expected shape; `none` models a parse exception, which the catch turns
into the default; an empty stored string is falsy and also yields the
default.  The function is total: no failure escapes. -/
def loadState (parse : Str → Option α) (store : Store) (key : Str)
    (dflt : α) : α :=
  match storeGet store key with
  | .error _ => dflt
  | .ok none => dflt
  | .ok (some s) =>
    if s = [] then dflt
    else
      match parse s with
      | none => dflt
      | some v => v

/-- Embedding of the unguarded persistence effects of the App component
(src/App.tsx lines 86-110): `localStorage.setItem(key, serialized)` with
no try/catch, so a storage failure propagates to the caller. -/
def appSaveEffect (store : Store) (key value : Str) : Except Str Store :=
  storeSet store key value

/-- Embedding of the guarded visuals persistence effect
(src/components/PlanDisplay.tsx lines 125-131): a storage failure is
caught, the warning is logged (returned here) and the store is left as it
was. -/
def visualsSaveEffect (store : Store) (key value : Str) :
    Store × Option Str :=
  match storeSet store key value with
  | .ok store2 => (store2, none)
  | .error _ => (store, some (str ("Local storage quota exceeded")))

/-! ## Auxiliary notions and concrete fixtures used by the statements. -/

deriving instance DecidableEq for Except

/-- Two completion lists hold the same contents as sets of identifiers
(the specification treats `completedDays` and `completedExercises` as
sets). -/
def sameContents (a b : List Str) : Prop := ∀ x, x ∈ a ↔ x ∈ b

/-- The starting state is consistent for the day `dayId`: whenever the
day resolves in the loaded plan, a complete day has all the identifiers
of its exercises in `completedExercises` and an incomplete day has none
of them (Invariant A together with its converse for the day). -/
def dayStateConsistent (st : AppState) (dayId : Str) : Prop :=
  ∀ p, st.plan = some p →
    ∀ wStr dStr, daySplit dayId = some (wStr, dStr) →
      ∀ dp, resolveDay p wStr dStr = some dp →
        (dayId ∈ st.completedDays →
           ∀ id ∈ exerciseIdsOf dayId dp.exercises.length,
             id ∈ st.completedExercises) ∧
        (dayId ∉ st.completedDays →
           ∀ id ∈ exerciseIdsOf dayId dp.exercises.length,
             id ∉ st.completedExercises)

/-- Fixture: an exercise with a given name and default fields. -/
def mkEx (nm : Str) : Exercise :=
  ⟨nm, str ("3"), str ("10"), str ("60s"), none, none, none⟩

/-- Fixture: a workout day holding the given exercises. -/
def mkDay (exs : List Exercise) : DayPlan :=
  ⟨str ("Monday"), str ("Upper Body"), exs, str ("45 min")⟩

/-- Fixture: a one-week plan whose single day holds the given
exercises. -/
def mkPlan (exs : List Exercise) : WorkoutCurriculum :=
  ⟨str ("Program"), str ("Desc"), [⟨1, str ("Base"), [mkDay exs]⟩], [], none⟩

/-- Fixture: an app state with the given plan and completion lists and
empty remaining cells. -/
def mkState (plan : Option WorkoutCurriculum) (cd ce : List Str) : AppState :=
  ⟨none, plan, cd, ce, [], [], false, none⟩

/-- Fixture: a concrete user profile. -/
def profile0 : UserProfile :=
  ⟨25, 170, 70, Gender.male, Goal.generalFitness, ExperienceLevel.intermediate,
   [Equipment.bodyweightOnly], 3, 45, none⟩

/-! ## Library of facts about the string and list models. -/

theorem mem_dedupAux (l : List Str) :
    ∀ (seen : List Str) (x : Str), x ∈ dedupAux seen l ↔ (x ∈ l ∧ x ∉ seen) := by
  induction l with
  | nil => intro seen x; simp [dedupAux]
  | cons y ys ih =>
    intro seen x
    by_cases hy : y ∈ seen
    · rw [dedupAux, if_pos hy, ih]
      simp only [List.mem_cons]
      constructor
      · rintro ⟨hx, hns⟩; exact ⟨Or.inr hx, hns⟩
      · rintro ⟨hx, hns⟩
        rcases hx with rfl | hx
        · exact absurd hy hns
        · exact ⟨hx, hns⟩
    · rw [dedupAux, if_neg hy]
      simp only [List.mem_cons, ih, List.mem_cons]
      constructor
      · rintro (rfl | ⟨hx, hns⟩)
        · exact ⟨Or.inl rfl, hy⟩
        · exact ⟨Or.inr hx, fun hs => hns (Or.inr hs)⟩
      · rintro ⟨rfl | hx, hns⟩
        · exact Or.inl rfl
        · by_cases hxy : x = y
          · exact Or.inl hxy
          · exact Or.inr ⟨hx, fun hs => by
              rcases hs with rfl | hs
              · exact hxy rfl
              · exact hns hs⟩

theorem mem_jsSetUnion (a b : List Str) (x : Str) :
    x ∈ jsSetUnion a b ↔ (x ∈ a ∨ x ∈ b) := by
  unfold jsSetUnion
  rw [mem_dedupAux]
  simp

theorem natStrF_append (fuel : Nat) :
    ∀ (n : Nat) (acc : Str), natStrF fuel n acc = natStrF fuel n [] ++ acc := by
  induction fuel with
  | zero => intro n acc; simp [natStrF]
  | succ fuel ih =>
    intro n acc
    by_cases h : n < 10
    · simp [natStrF, h]
    · rw [natStrF, if_neg h, natStrF, if_neg h, ih (n / 10), ih (n / 10) [_]]
      simp

theorem natStrF_ne_nil (fuel n : Nat) (acc : Str) :
    natStrF (fuel + 1) n acc ≠ [] := by
  by_cases h : n < 10
  · simp [natStrF, h]
  · rw [natStrF, if_neg h, natStrF_append]
    simp

theorem natStrF_fuel_eq :
    ∀ (f : Nat), ∀ g n acc, 0 < f → 0 < g → n < 10 ^ f → n < 10 ^ g →
      natStrF f n acc = natStrF g n acc := by
  intro f
  induction f with
  | zero => intro g n acc hf; omega
  | succ f ih =>
    intro g n acc _ hg hnf hng
    obtain ⟨g, rfl⟩ : ∃ g2, g = g2 + 1 := ⟨g - 1, by omega⟩
    by_cases h : n < 10
    · simp [natStrF, h]
    · rw [natStrF, if_neg h, natStrF, if_neg h]
      have hf2 : 0 < f := by
        by_contra hc
        have : f = 0 := by omega
        subst this
        simp [pow_succ, pow_zero] at hnf
        omega
      have hg2 : 0 < g := by
        by_contra hc
        have : g = 0 := by omega
        subst this
        simp [pow_succ, pow_zero] at hng
        omega
      have hdf : n / 10 < 10 ^ f := by
        rw [Nat.div_lt_iff_lt_mul (by omega)]
        calc n < 10 ^ (f + 1) := hnf
        _ = 10 ^ f * 10 := by rw [pow_succ]
      have hdg : n / 10 < 10 ^ g := by
        rw [Nat.div_lt_iff_lt_mul (by omega)]
        calc n < 10 ^ (g + 1) := hng
        _ = 10 ^ g * 10 := by rw [pow_succ]
      exact ih g (n / 10) _ hf2 hg2 hdf hdg

theorem natStr_lt10 (n : Nat) (h : n < 10) : natStr n = [digitCharF n] := by
  simp [natStr, natStrF, h]

theorem natStr_ge10 (n : Nat) (h : 10 ≤ n) :
    natStr n = natStr (n / 10) ++ [digitCharF (n % 10)] := by
  have h1 : n / 10 < 10 ^ n := by
    calc n / 10 ≤ n := Nat.div_le_self n 10
    _ < 10 ^ n := Nat.lt_pow_self (by omega) n
  have h2a : n / 10 < 10 ^ (n / 10) := Nat.lt_pow_self (by omega) _
  have h2 : n / 10 < 10 ^ (n / 10 + 1) :=
    lt_of_lt_of_le h2a (Nat.pow_le_pow_right (by omega) (by omega))
  have h0 : 0 < n := by omega
  have h0b : 0 < n / 10 + 1 := by omega
  unfold natStr
  rw [natStrF, if_neg (show ¬ n < 10 by omega), natStrF_append]
  rw [natStrF_fuel_eq n (n / 10 + 1) (n / 10) [] h0 h0b h1 h2]

theorem natStr_ne_nil (n : Nat) : natStr n ≠ [] := natStrF_ne_nil n n []

theorem digitCharF_inj :
    ∀ d, d < 10 → ∀ e, e < 10 → digitCharF d = digitCharF e → d = e := by
  decide

theorem natStr_inj : ∀ m n : Nat, natStr m = natStr n → m = n := by
  intro m
  induction m using Nat.strong_induction_on with
  | _ m ih =>
    intro n h
    by_cases hm : m < 10
    · by_cases hn : n < 10
      · rw [natStr_lt10 m hm, natStr_lt10 n hn] at h
        simp only [List.cons.injEq, and_true] at h
        exact digitCharF_inj m hm n hn h
      · rw [natStr_lt10 m hm, natStr_ge10 n (by omega)] at h
        have hlen := congrArg List.length h
        simp at hlen
        exact absurd hlen (natStr_ne_nil _)
    · by_cases hn : n < 10
      · rw [natStr_ge10 m (by omega), natStr_lt10 n hn] at h
        have hlen := congrArg List.length h
        simp at hlen
        exact absurd hlen (natStr_ne_nil _)
      · rw [natStr_ge10 m (by omega), natStr_ge10 n (by omega)] at h
        have hlen : [digitCharF (m % 10)].length = [digitCharF (n % 10)].length := by
          simp
        obtain ⟨h1, h2⟩ := List.append_inj' h hlen
        have hdiv : m / 10 = n / 10 :=
          ih (m / 10) (Nat.div_lt_self (by omega) (by omega)) _ h1
        simp only [List.cons.injEq, and_true] at h2
        have hmod : m % 10 = n % 10 :=
          digitCharF_inj _ (Nat.mod_lt _ (by omega)) _ (Nat.mod_lt _ (by omega)) h2
        have := Nat.div_add_mod m 10
        have := Nat.div_add_mod n 10
        omega

theorem mkExId_inj (dayId : Str) : Function.Injective (mkExId dayId) := by
  intro i j h
  unfold mkExId at h
  exact natStr_inj i j (List.append_cancel_left h)

theorem exerciseIdsOf_length (dayId : Str) (n : Nat) :
    (exerciseIdsOf dayId n).length = n := by
  simp [exerciseIdsOf]

theorem exerciseIdsOf_nodup (dayId : Str) (n : Nat) :
    (exerciseIdsOf dayId n).Nodup :=
  (List.nodup_range n).map (mkExId_inj dayId)

theorem mem_exerciseIdsOf (dayId : Str) (n : Nat) (x : Str) :
    x ∈ exerciseIdsOf dayId n ↔ ∃ k, k < n ∧ x = mkExId dayId k := by
  simp [exerciseIdsOf, eq_comm]

/-! ## Claim C1: state after a failed plan generation. -/

/-- Claim C1, counterexample to the claim as stated: starting from a
state with no profile, a failing generation call leaves the in-memory
profile equal to the submitted profile, not to its value from before the
call — the profile is committed before the provider call. -/
theorem C1_counterexample :
    (handleGenerate (mkState none [] []) profile0
        (Except.error (str ("network failure"))) (str ("2026-01-05"))).profile
      ≠ (mkState none [] []).profile := by
  decide

/-- Claim C1 (amended): when the content-generation call fails, the plan,
the two completion lists, the workout logs and the progress ledger all
equal exactly their values from before the call and the generic error
message is surfaced; the profile, however, is committed before the call
and therefore equals the submitted profile, not its prior value. -/
theorem C1_generate_failure_leaves_plan (st : AppState) (up : UserProfile)
    (e : Str) (iso : Str) :
    (handleGenerate st up (Except.error e) iso).plan = st.plan ∧
    (handleGenerate st up (Except.error e) iso).completedDays = st.completedDays ∧
    (handleGenerate st up (Except.error e) iso).completedExercises
      = st.completedExercises ∧
    (handleGenerate st up (Except.error e) iso).workoutLogs = st.workoutLogs ∧
    (handleGenerate st up (Except.error e) iso).progressHistory
      = st.progressHistory ∧
    (handleGenerate st up (Except.error e) iso).error
      = some genericGenerationError ∧
    (handleGenerate st up (Except.error e) iso).profile = some up := by
  simp [handleGenerate]

/-! ## Claim C9: the net weight change of the progress ledger. -/

/-- Claim C9, counterexample to the claim as stated: a one-entry ledger
reports the numeric change 0 (the source renders it as the string 0.0),
it is not omitted, although the ledger has fewer than two entries. -/
theorem C9_counterexample :
    weightChange [⟨str ("2024-01-10"), 80⟩] = some 0 ∧
    ([⟨str ("2024-01-10"), 80⟩] : List ProgressEntry).length < 2 := by
  constructor
  · decide
  · decide

/-- Claim C9 (amended): the reported net weight change equals the last
weight minus the first weight exactly when the ledger is nonempty and
both boundary weights are nonzero (a truthiness guard): in particular a
one-entry ledger reports the numeric change 0 rather than omitting it;
on an empty ledger, or when the first or last weight is the falsy 0, the
sentinel 0 is displayed instead of a computed change (modelled as
`none`). -/
theorem C9_weight_change (entries : List ProgressEntry)
    (f l : ProgressEntry) :
    (entries.head? = some f → entries.getLast? = some l →
       f.weight ≠ 0 → l.weight ≠ 0 →
       weightChange entries = some (l.weight - f.weight)) ∧
    weightChange [] = none ∧
    (∀ e : ProgressEntry, e.weight ≠ 0 → weightChange [e] = some 0) ∧
    (entries.head? = some f → entries.getLast? = some l →
       (f.weight = 0 ∨ l.weight = 0) → weightChange entries = none) := by
  refine ⟨?_, by decide, ?_, ?_⟩
  · intro hh hl hf hlz
    simp [weightChange, latestWeight, startWeight, hh, hl, hf, hlz]
  · intro e he
    simp [weightChange, latestWeight, startWeight, he]
  · intro hh hl hz
    rcases hz with hz | hz <;>
      simp [weightChange, latestWeight, startWeight, hh, hl, hz]

/-- Claim C9, witness: a two-entry ledger with nonzero weights reports
the difference of the boundary weights. -/
theorem C9_weight_change_witness :
    ([⟨str ("2024-01-05"), 82⟩, ⟨str ("2024-01-10"), 80⟩]
        : List ProgressEntry).head? = some ⟨str ("2024-01-05"), 82⟩ ∧
    weightChange [⟨str ("2024-01-05"), 82⟩, ⟨str ("2024-01-10"), 80⟩]
      = some (80 - 82) :=
  ⟨by decide,
   (C9_weight_change [⟨str ("2024-01-05"), 82⟩, ⟨str ("2024-01-10"), 80⟩]
       ⟨str ("2024-01-05"), 82⟩ ⟨str ("2024-01-10"), 80⟩).1
     (by decide) (by decide) (by decide) (by decide)⟩

/-! ## Claim C8: fail-soft persistence. -/

/-- Claim C8, counterexample to the claim as stated: the App-level
persistence effects are not guarded, so a save against a store with an
exhausted quota propagates the storage exception out of the effect
instead of logging and swallowing it. -/
theorem C8_counterexample :
    appSaveEffect ⟨[], true, true⟩ (str ("fitgenius_profile"))
        (str ("serialized")) = Except.error (str ("QuotaExceededError")) := by
  decide

/-- Claim C8 (amended): every load is fail-soft — a missing backing
store, a missing key or a parse failure (also an empty, falsy stored
text) returns the supplied default and never raises — and the visuals
save catches its failure, logs the warning and leaves the store as it
was, while a successful visuals save commits the write; the six
App-level saves, however, are unguarded, and against an exhausted quota
they propagate the storage exception (the in-memory state, which the
effects do not touch, stays authoritative regardless). -/
theorem C8_persistence (α : Type) (parse : Str → Option α) (store : Store)
    (key : Str) (d : α) :
    (store.available = false → loadState parse store key d = d) ∧
    (storeGet store key = .ok none → loadState parse store key d = d) ∧
    (∀ s, storeGet store key = .ok (some s) → s ≠ [] → parse s = none →
       loadState parse store key d = d) ∧
    (∀ v e, storeSet store key v = .error e →
       visualsSaveEffect store key v
         = (store, some (str ("Local storage quota exceeded")))) ∧
    (∀ v st2, storeSet store key v = .ok st2 →
       visualsSaveEffect store key v = (st2, none)) ∧
    (store.quotaFull = true → store.available = true → ∀ v,
       appSaveEffect store key v = Except.error (str ("QuotaExceededError"))) := by
  refine ⟨?_, ?_, ?_, ?_, ?_, ?_⟩
  · intro hav
    simp [loadState, storeGet, hav]
  · intro hget
    simp [loadState, hget]
  · intro s hget hne hparse
    simp [loadState, hget, hne, hparse]
  · intro v e hset
    simp [visualsSaveEffect, hset]
  · intro v st2 hset
    simp [visualsSaveEffect, hset]
  · intro hq hav v
    simp [appSaveEffect, storeSet, hq, hav]

/-- Claim C8, witness: a load against an unavailable backing store
returns the supplied default. -/
theorem C8_persistence_witness :
    (⟨[], false, false⟩ : Store).available = false ∧
    loadState (fun _ => (none : Option Nat)) ⟨[], false, false⟩
        (str ("fitgenius_plan")) 7 = 7 :=
  ⟨rfl,
   (C8_persistence Nat (fun _ => none) ⟨[], false, false⟩
       (str ("fitgenius_plan")) 7).1 rfl⟩

/-! ## Claim C5: exercise reordering by drag-and-drop. -/

theorem splice_decomp (l : List α) :
    ∀ i x, l.get? i = some x → l = l.take i ++ x :: l.drop (i + 1) := by
  induction l with
  | nil => intro i x h; cases i <;> simp [List.get?] at h
  | cons c cs ih =>
    intro i x h
    cases i with
    | zero =>
      obtain rfl : c = x := by simpa [List.get?] using h
      simp
    | succ i =>
      have h2 : cs.get? i = some x := by simpa [List.get?] using h
      have h3 := ih i x h2
      simp only [List.take_succ_cons, List.drop_succ_cons, List.cons_append]
      rw [← h3]

theorem spliceInsert_perm (l : List α) (j : Nat) (x : α) :
    (spliceInsert l j x).Perm (x :: l) := by
  unfold spliceInsert
  have h1 : (l.take j ++ x :: l.drop j).Perm (x :: (l.take j ++ l.drop j)) :=
    List.perm_middle
  rwa [List.take_append_drop] at h1

theorem moveItem_perm (l : List α) (i j : Nat) (x : α)
    (h : l.get? i = some x) : (moveItem l i j).Perm l := by
  unfold moveItem
  rw [h]
  have h1 := spliceInsert_perm (spliceRemove l i) j x
  have h2 : (x :: spliceRemove l i).Perm l := by
    unfold spliceRemove
    have h3 : (l.take i ++ x :: l.drop (i + 1)).Perm
        (x :: (l.take i ++ l.drop (i + 1))) := List.perm_middle
    have h4 := splice_decomp l i x h
    have h5 := h3.symm
    rw [← h4] at h5
    exact h5
  exact h1.trans h2

theorem moveItem_length (l : List α) (i j : Nat) (x : α)
    (h : l.get? i = some x) : (moveItem l i j).length = l.length :=
  (moveItem_perm l i j x h).length_eq

theorem get?_listModify_eq (l : List α) (i : Nat) (f : α → α) (x : α)
    (h : l.get? i = some x) : (listModify l i f).get? i = some (f x) := by
  unfold listModify
  rw [h, List.get?_set_eq, h]
  rfl

theorem get?_listModify_ne (l : List α) (i k : Nat) (f : α → α)
    (h : i ≠ k) : (listModify l i f).get? k = l.get? k := by
  unfold listModify
  cases hx : l.get? i with
  | none => rfl
  | some x => exact List.get?_set_ne _ _ h

theorem listModify_length (l : List α) (i : Nat) (f : α → α) :
    (listModify l i f).length = l.length := by
  unfold listModify
  cases hx : l.get? i with
  | none => rfl
  | some x => exact List.length_set l i (f x)

theorem exercisesAt_of_get? (p : WorkoutCurriculum) (w d : Nat)
    (wk : WeeklyPlan) (h : p.weeks.get? w = some wk) :
    exercisesAt p w d = (wk.schedule.get? d).map (fun day => day.exercises) := by
  unfold exercisesAt
  rw [h]

theorem exercisesAt_congr (p q : WorkoutCurriculum) (w d : Nat)
    (h : p.weeks.get? w = q.weeks.get? w) :
    exercisesAt p w d = exercisesAt q w d := by
  unfold exercisesAt
  rw [h]

/-- Claim C5: moving an exercise within one week and day removes the
exercise at the source index and reinserts it at the target index,
shifting the elements in between: the updated day holds exactly that
splice of its previous exercise list (in particular a permutation of the
same length), every other week and day of the returned snapshot is
unchanged, the top-level fields of the snapshot are unchanged, and on the
four-exercise day A B C D the move from index 2 to index 0 yields
C A B D.  The handler operates on a deep copy, so in this value
semantics the previously held plan value is unchanged by construction
and the new snapshot is returned. -/
theorem C5_move_exercise (p : WorkoutCurriculum) (w d i j : Nat)
    (wk : WeeklyPlan) (day : DayPlan) (x : Exercise)
    (hw : p.weeks.get? w = some wk) (hd : wk.schedule.get? d = some day)
    (hx : day.exercises.get? i = some x) (hij : i ≠ j) :
    exercisesAt (handleDrop p (some ⟨w, d, i⟩) w d j) w d
      = some (spliceInsert (spliceRemove day.exercises i) j x) ∧
    (spliceInsert (spliceRemove day.exercises i) j x).Perm day.exercises ∧
    (spliceInsert (spliceRemove day.exercises i) j x).length
      = day.exercises.length ∧
    (∀ w2 d2, w2 ≠ w ∨ d2 ≠ d →
       exercisesAt (handleDrop p (some ⟨w, d, i⟩) w d j) w2 d2
         = exercisesAt p w2 d2) ∧
    (handleDrop p (some ⟨w, d, i⟩) w d j).programName = p.programName ∧
    (handleDrop p (some ⟨w, d, i⟩) w d j).description = p.description ∧
    (handleDrop p (some ⟨w, d, i⟩) w d j).nutritionTips = p.nutritionTips ∧
    (handleDrop p (some ⟨w, d, i⟩) w d j).startDate = p.startDate ∧
    (handleDrop p (some ⟨w, d, i⟩) w d j).weeks.length = p.weeks.length ∧
    moveItem [mkEx (str ("A")), mkEx (str ("B")), mkEx (str ("C")),
        mkEx (str ("D"))] 2 0
      = [mkEx (str ("C")), mkEx (str ("A")), mkEx (str ("B")),
         mkEx (str ("D"))] := by
  have hdrop : handleDrop p (some ⟨w, d, i⟩) w d j
      = { p with weeks :=
            listModify p.weeks w (fun wk2 =>
              { wk2 with schedule :=
                  listModify wk2.schedule d (fun day2 =>
                    { day2 with exercises :=
                        moveItem day2.exercises i j }) }) } := by
    unfold handleDrop
    simp [hij]
  have hmove : moveItem day.exercises i j
      = spliceInsert (spliceRemove day.exercises i) j x := by
    unfold moveItem
    rw [hx]
  have hw2 : (handleDrop p (some ⟨w, d, i⟩) w d j).weeks.get? w
      = some { wk with
               schedule := listModify wk.schedule d (fun day2 =>
                 { day2 with exercises := moveItem day2.exercises i j }) } := by
    rw [hdrop]
    exact get?_listModify_eq _ _ _ _ hw
  have hd2 : (listModify wk.schedule d (fun day2 =>
        { day2 with exercises := moveItem day2.exercises i j })).get? d
      = some { day with exercises := moveItem day.exercises i j } :=
    get?_listModify_eq _ _ _ _ hd
  refine ⟨?_, ?_, ?_, ?_, ?_, ?_, ?_, ?_, ?_, ?_⟩
  · rw [exercisesAt_of_get? _ w d _ hw2, hd2]
    simp [hmove]
  · rw [← hmove]
    exact moveItem_perm _ _ _ _ hx
  · rw [← hmove]
    exact moveItem_length _ _ _ _ hx
  · intro w2 d2 hne
    by_cases hww : w2 = w
    · subst hww
      rcases hne with hne | hne
    
      · exact absurd rfl hne
      · rw [exercisesAt_of_get? _ w2 d2 _ hw2, exercisesAt_of_get? _ w2 d2 _ hw,
            get?_listModify_ne _ _ _ _ (fun hc => hne hc.symm)]
    · apply exercisesAt_congr
      rw [hdrop]
      exact get?_listModify_ne _ _ _ _ (fun hc => hww hc.symm)
  · rw [hdrop]
  · rw [hdrop]
  · rw [hdrop]
  · rw [hdrop]
  · rw [hdrop]
    exact listModify_length _ _ _
  · decide

/-- Claim C5, witness: the move of index 2 to index 0 on the concrete
four-exercise day of the one-day fixture plan. -/
theorem C5_move_exercise_witness :
    (mkPlan [mkEx (str ("A")), mkEx (str ("B")), mkEx (str ("C")),
        mkEx (str ("D"))]).weeks.get? 0
      = some ⟨1, str ("Base"), [mkDay [mkEx (str ("A")), mkEx (str ("B")),
          mkEx (str ("C")), mkEx (str ("D"))]]⟩ ∧
    exercisesAt (handleDrop (mkPlan [mkEx (str ("A")), mkEx (str ("B")),
        mkEx (str ("C")), mkEx (str ("D"))]) (some ⟨0, 0, 2⟩) 0 0 0) 0 0
      = some (spliceInsert (spliceRemove [mkEx (str ("A")),
          mkEx (str ("B")), mkEx (str ("C")), mkEx (str ("D"))] 2) 0
          (mkEx (str ("C")))) :=
  ⟨by decide,
   (C5_move_exercise (mkPlan [mkEx (str ("A")), mkEx (str ("B")),
       mkEx (str ("C")), mkEx (str ("D"))]) 0 0 2 0
     ⟨1, str ("Base"), [mkDay [mkEx (str ("A")), mkEx (str ("B")),
         mkEx (str ("C")), mkEx (str ("D"))]]⟩
     (mkDay [mkEx (str ("A")), mkEx (str ("B")), mkEx (str ("C")),
         mkEx (str ("D"))])
     (mkEx (str ("C")))
     (by decide) (by decide) (by decide) (by decide)).1⟩

/-! ## Characterization of the two completion toggles. -/

theorem toggleDay_spec (st : AppState) (dayId : Str) (p : WorkoutCurriculum)
    (wStr dStr : Str) (dp : DayPlan)
    (hp : st.plan = some p) (hsplit : daySplit dayId = some (wStr, dStr))
    (hres : resolveDay p wStr dStr = some dp) :
    handleToggleDayComplete st dayId =
      .ok { st with
            completedDays :=
              if dayId ∈ st.completedDays
              then st.completedDays.filter (fun id => id ≠ dayId)
              else st.completedDays ++ [dayId],
            completedExercises :=
              if dayId ∈ st.completedDays
              then st.completedExercises.filter
                     (fun id => id ∉ exerciseIdsOf dayId dp.exercises.length)
              else jsSetUnion st.completedExercises
                     (exerciseIdsOf dayId dp.exercises.length) } := by
  unfold handleToggleDayComplete
  rw [hp]
  simp only [hsplit, hres]
  by_cases hmem : dayId ∈ st.completedDays <;> simp [hmem]

theorem toggleDay_spec_noplan (st : AppState) (dayId : Str)
    (hp : st.plan = none) :
    handleToggleDayComplete st dayId =
      .ok { st with
            completedDays :=
              if dayId ∈ st.completedDays
              then st.completedDays.filter (fun id => id ≠ dayId)
              else st.completedDays ++ [dayId] } := by
  unfold handleToggleDayComplete
  rw [hp]
  by_cases hmem : dayId ∈ st.completedDays <;> simp [hmem]

theorem toggleDay_spec_noday (st : AppState) (dayId : Str)
    (p : WorkoutCurriculum) (wStr dStr : Str)
    (hp : st.plan = some p) (hsplit : daySplit dayId = some (wStr, dStr))
    (hres : resolveDay p wStr dStr = none) :
    handleToggleDayComplete st dayId =
      .ok { st with
            completedDays :=
              if dayId ∈ st.completedDays
              then st.completedDays.filter (fun id => id ≠ dayId)
              else st.completedDays ++ [dayId] } := by
  unfold handleToggleDayComplete
  rw [hp]
  simp only [hsplit, hres]
  by_cases hmem : dayId ∈ st.completedDays <;> simp [hmem]

theorem toggleDay_raises (st : AppState) (dayId : Str) (p : WorkoutCurriculum)
    (hp : st.plan = some p) (hsplit : daySplit dayId = none) :
    handleToggleDayComplete st dayId = .error JsError.typeError := by
  unfold handleToggleDayComplete
  rw [hp]
  simp only [hsplit]

theorem toggleEx_spec_uncomplete (st : AppState) (exerciseId : Str)
    (hmem : exerciseId ∈ st.completedExercises) :
    handleToggleExerciseComplete st exerciseId =
      .ok ({ st with completedExercises :=
               st.completedExercises.filter (fun id => id ≠ exerciseId) },
           none) := by
  unfold handleToggleExerciseComplete
  rw [if_pos hmem]

theorem toggleEx_spec_complete (st : AppState) (exerciseId : Str)
    (p : WorkoutCurriculum) (wStr dStr : Str) (dp : DayPlan)
    (hmem : exerciseId ∉ st.completedExercises)
    (hp : st.plan = some p)
    (hsplit : daySplit (dayIdOf exerciseId) = some (wStr, dStr))
    (hres : resolveDay p wStr dStr = some dp) :
    handleToggleExerciseComplete st exerciseId =
      .ok ({ st with completedExercises :=
               st.completedExercises ++ [exerciseId] },
           if (∀ id ∈ exerciseIdsOf (dayIdOf exerciseId) dp.exercises.length,
                 id = exerciseId ∨ id ∈ st.completedExercises)
               ∧ dayIdOf exerciseId ∉ st.completedDays
           then some (dayIdOf exerciseId) else none) := by
  unfold handleToggleExerciseComplete
  rw [if_neg hmem, hp]
  simp only [hsplit, hres]
  by_cases hcond : (∀ id ∈ exerciseIdsOf (dayIdOf exerciseId)
        dp.exercises.length, id = exerciseId ∨ id ∈ st.completedExercises)
      ∧ dayIdOf exerciseId ∉ st.completedDays
  · rw [if_pos hcond, if_pos hcond]
  · rw [if_neg hcond, if_neg hcond]

theorem toggleEx_spec_noplan (st : AppState) (exerciseId : Str)
    (hmem : exerciseId ∉ st.completedExercises) (hp : st.plan = none) :
    handleToggleExerciseComplete st exerciseId =
      .ok ({ st with completedExercises :=
               st.completedExercises ++ [exerciseId] }, none) := by
  unfold handleToggleExerciseComplete
  rw [if_neg hmem, hp]

theorem toggleEx_spec_noday (st : AppState) (exerciseId : Str)
    (p : WorkoutCurriculum) (wStr dStr : Str)
    (hmem : exerciseId ∉ st.completedExercises) (hp : st.plan = some p)
    (hsplit : daySplit (dayIdOf exerciseId) = some (wStr, dStr))
    (hres : resolveDay p wStr dStr = none) :
    handleToggleExerciseComplete st exerciseId =
      .ok ({ st with completedExercises :=
               st.completedExercises ++ [exerciseId] }, none) := by
  unfold handleToggleExerciseComplete
  rw [if_neg hmem, hp]
  simp only [hsplit, hres]

theorem toggleEx_raises (st : AppState) (exerciseId : Str)
    (p : WorkoutCurriculum)
    (hmem : exerciseId ∉ st.completedExercises) (hp : st.plan = some p)
    (hsplit : daySplit (dayIdOf exerciseId) = none) :
    handleToggleExerciseComplete st exerciseId = .error JsError.typeError := by
  unfold handleToggleExerciseComplete
  rw [if_neg hmem, hp]
  simp only [hsplit]

/-! ## Claim C4: the full cascade of a day toggle. -/

/-- Claim C4: for every day identifier that resolves to a day of the
loaded plan, a day toggle that transitions the day to complete puts the
day into `completedDays` and every exercise identifier of that day into
`completedExercises`, and a day toggle that transitions it to incomplete
removes the day from `completedDays` and every exercise identifier of
that day from `completedExercises`; hence Invariant A — day complete
implies all its exercises complete — holds for the toggled day
immediately after any day toggle. -/
theorem C4_toggle_day_cascade (st : AppState) (dayId : Str)
    (p : WorkoutCurriculum) (wStr dStr : Str) (dp : DayPlan)
    (st2 : AppState)
    (hp : st.plan = some p) (hsplit : daySplit dayId = some (wStr, dStr))
    (hres : resolveDay p wStr dStr = some dp)
    (hok : handleToggleDayComplete st dayId = .ok st2) :
    (dayId ∉ st.completedDays →
       dayId ∈ st2.completedDays ∧
       ∀ id ∈ exerciseIdsOf dayId dp.exercises.length,
         id ∈ st2.completedExercises) ∧
    (dayId ∈ st.completedDays →
       dayId ∉ st2.completedDays ∧
       ∀ id ∈ exerciseIdsOf dayId dp.exercises.length,
         id ∉ st2.completedExercises) := by
  rw [toggleDay_spec st dayId p wStr dStr dp hp hsplit hres] at hok
  have hst2 := (Except.ok.inj hok).symm
  subst hst2
  constructor
  · intro hmem
    rw [if_neg hmem, if_neg hmem]
    constructor
    · simp
    · intro id hid
      simp only [mem_jsSetUnion]
      exact Or.inr hid
  · intro hmem
    rw [if_pos hmem, if_pos hmem]
    constructor
    · simp
    · intro id hid
      simp [List.mem_filter]
      intro _
      exact hid

/-- Claim C4, witness: toggling the single day of the one-exercise
fixture plan to complete inserts the day and its exercise identifier. -/
theorem C4_toggle_day_cascade_witness :
    str ("w0-d0") ∉ (mkState (some (mkPlan [mkEx (str ("A"))])) [] []).completedDays ∧
    str ("w0-d0") ∈
      (⟨none, some (mkPlan [mkEx (str ("A"))]), [str ("w0-d0")],
        [str ("w0-d0-ex0")], [], [], false, none⟩ : AppState).completedDays :=
  ⟨by decide,
   ((C4_toggle_day_cascade (mkState (some (mkPlan [mkEx (str ("A"))])) [] [])
       (str ("w0-d0")) (mkPlan [mkEx (str ("A"))]) (str ("w0")) (str ("d0"))
       (mkDay [mkEx (str ("A"))])
       ⟨none, some (mkPlan [mkEx (str ("A"))]), [str ("w0-d0")],
        [str ("w0-d0-ex0")], [], [], false, none⟩
       (by decide) (by decide) (by decide) (by decide)).1 (by decide)).1⟩

/-! ## Claim C3: the exercise toggle and its pending-completion signal. -/

/-- Claim C3: for an exercise identifier owned by a day of the loaded
plan, the exercise toggle flips membership of exactly that identifier in
`completedExercises` and never changes `completedDays`; the call returns
the owning day identifier exactly when the toggle is a completion after
which every exercise of the owning day is complete and the day is not
already in `completedDays` (and in that case not all exercises of the
day were complete before, so there is one signal per transition into
all-complete, and the day is still absent from `completedDays`
afterwards, which stays untouched); in every other case — including
every un-completion — the null result is returned. -/
theorem C3_toggle_exercise (st : AppState) (exerciseId : Str)
    (p : WorkoutCurriculum) (wStr dStr : Str) (dp : DayPlan) (k : Nat)
    (st2 : AppState) (sig : Option Str)
    (hp : st.plan = some p)
    (hsplit : daySplit (dayIdOf exerciseId) = some (wStr, dStr))
    (hres : resolveDay p wStr dStr = some dp)
    (hk : k < dp.exercises.length)
    (hid : exerciseId = mkExId (dayIdOf exerciseId) k)
    (hok : handleToggleExerciseComplete st exerciseId = .ok (st2, sig)) :
    st2.completedDays = st.completedDays ∧
    (∀ x, x ∈ st2.completedExercises ↔
       (if exerciseId ∈ st.completedExercises
        then x ∈ st.completedExercises ∧ x ≠ exerciseId
        else x ∈ st.completedExercises ∨ x = exerciseId)) ∧
    (sig = none ∨ sig = some (dayIdOf exerciseId)) ∧
    (sig = some (dayIdOf exerciseId) ↔
       (exerciseId ∉ st.completedExercises ∧
        (∀ id ∈ exerciseIdsOf (dayIdOf exerciseId) dp.exercises.length,
           id ∈ st2.completedExercises) ∧
        dayIdOf exerciseId ∉ st.completedDays)) ∧
    (sig = some (dayIdOf exerciseId) →
       ¬ (∀ id ∈ exerciseIdsOf (dayIdOf exerciseId) dp.exercises.length,
            id ∈ st.completedExercises)) ∧
    (exerciseId ∈ st.completedExercises → sig = none) := by
  have hmemE : exerciseId ∈ exerciseIdsOf (dayIdOf exerciseId)
      dp.exercises.length := by
    rw [mem_exerciseIdsOf]
    exact ⟨k, hk, hid⟩
  by_cases hmem : exerciseId ∈ st.completedExercises
  · rw [toggleEx_spec_uncomplete st exerciseId hmem] at hok
    obtain ⟨h1, h2⟩ := Prod.mk.injEq .. ▸ (Except.ok.inj hok)
    subst h2
    have hst2 : st2 = { st with completedExercises :=
        st.completedExercises.filter (fun id => id ≠ exerciseId) } := h1.symm
    subst hst2
    refine ⟨rfl, ?_, Or.inl rfl, ?_, ?_, fun _ => rfl⟩
    · intro x
      rw [if_pos hmem]
      simp [List.mem_filter]
    · constructor
      · intro hcon
        exact absurd hcon (by simp)
      · rintro ⟨hc, -⟩
        exact absurd hmem hc
    · intro hcon
      exact absurd hcon (by simp)
  · rw [toggleEx_spec_complete st exerciseId p wStr dStr dp hmem hp
        hsplit hres] at hok
    obtain ⟨h1, h2⟩ := Prod.mk.injEq .. ▸ (Except.ok.inj hok)
    have hst2 : st2 = { st with completedExercises :=
        st.completedExercises ++ [exerciseId] } := h1.symm
    subst hst2
    by_cases hcond : (∀ id ∈ exerciseIdsOf (dayIdOf exerciseId)
          dp.exercises.length, id = exerciseId ∨ id ∈ st.completedExercises)
        ∧ dayIdOf exerciseId ∉ st.completedDays
    · rw [if_pos hcond] at h2
      subst h2
      refine ⟨rfl, ?_, Or.inr rfl, ?_, ?_, fun hc => absurd hc hmem⟩
      · intro x
        rw [if_neg hmem]
        simp
      · constructor
        · intro _
          refine ⟨hmem, ?_, hcond.2⟩
          intro id hid2
          rcases hcond.1 id hid2 with rfl | hin
          · simp
          · simp [hin]
        · intro _
          rfl
      · intro _ hall
        exact hmem (hall exerciseId hmemE)
    · rw [if_neg hcond] at h2
      subst h2
      refine ⟨rfl, ?_, Or.inl rfl, ?_, ?_, fun _ => rfl⟩
      · intro x
        rw [if_neg hmem]
        simp
      · constructor
        · intro hcon
          exact absurd hcon (by simp)
        · rintro ⟨-, hall, hday⟩
          exfalso
          apply hcond
          refine ⟨?_, hday⟩
          intro id hid2
          have := hall id hid2
          simp at this
          rcases this with hin | rfl
          · exact Or.inr hin
          · exact Or.inl rfl
      · intro hcon
        exact absurd hcon (by simp)

/-- Claim C3, witness: on the three-exercise fixture day with the first
two exercises complete, completing the last one returns the
pending-completion signal for the owning day and the day stays out of
`completedDays`. -/
theorem C3_toggle_exercise_witness :
    str ("w0-d0-ex2") ∉
      (mkState (some (mkPlan [mkEx (str ("A")), mkEx (str ("B")),
          mkEx (str ("C"))])) [] [str ("w0-d0-ex0"), str ("w0-d0-ex1")]).completedExercises ∧
    (some (str ("w0-d0")) = some (dayIdOf (str ("w0-d0-ex2"))) ↔
      (str ("w0-d0-ex2") ∉ [str ("w0-d0-ex0"), str ("w0-d0-ex1")] ∧
       (∀ id ∈ exerciseIdsOf (dayIdOf (str ("w0-d0-ex2"))) 3,
          id ∈ (⟨none, some (mkPlan [mkEx (str ("A")), mkEx (str ("B")),
              mkEx (str ("C"))]), [],
            [str ("w0-d0-ex0"), str ("w0-d0-ex1"), str ("w0-d0-ex2")],
            [], [], false, none⟩ : AppState).completedExercises) ∧
       dayIdOf (str ("w0-d0-ex2")) ∉ ([] : List Str))) :=
  ⟨by decide,
   by
    have h := (C3_toggle_exercise
      (mkState (some (mkPlan [mkEx (str ("A")), mkEx (str ("B")),
          mkEx (str ("C"))])) [] [str ("w0-d0-ex0"), str ("w0-d0-ex1")])
      (str ("w0-d0-ex2"))
      (mkPlan [mkEx (str ("A")), mkEx (str ("B")), mkEx (str ("C"))])
      (str ("w0")) (str ("d0"))
      (mkDay [mkEx (str ("A")), mkEx (str ("B")), mkEx (str ("C"))]) 2
      ⟨none, some (mkPlan [mkEx (str ("A")), mkEx (str ("B")),
          mkEx (str ("C"))]), [],
        [str ("w0-d0-ex0"), str ("w0-d0-ex1"), str ("w0-d0-ex2")],
        [], [], false, none⟩
      (some (str ("w0-d0")))
      (by decide) (by decide) (by decide) (by decide) (by decide)
      (by decide)).2.2.2.1
    exact h⟩

/-! ## Claim C2: the double day toggle. -/

theorem not_mem_filter_self (cd : List Str) (a : Str) :
    a ∉ cd.filter (fun id => id ≠ a) := by
  simp [List.mem_filter]

theorem mem_toggle_restore_of_mem (cd : List Str) (a : Str) (hmem : a ∈ cd)
    (x : Str) : x ∈ (cd.filter (fun id => id ≠ a)) ++ [a] ↔ x ∈ cd := by
  simp only [List.mem_append, List.mem_filter, List.mem_singleton,
    decide_eq_true_eq]
  constructor
  · rintro (⟨hx, -⟩ | rfl)
    · exact hx
    · exact hmem
  · intro hx
    by_cases hxa : x = a
    · exact Or.inr hxa
    · exact Or.inl ⟨hx, hxa⟩

theorem mem_toggle_restore_of_not_mem (cd : List Str) (a : Str)
    (hmem : a ∉ cd) (x : Str) :
    x ∈ (cd ++ [a]).filter (fun id => id ≠ a) ↔ x ∈ cd := by
  simp only [List.mem_filter, List.mem_append, List.mem_singleton,
    decide_eq_true_eq]
  constructor
  · rintro ⟨hx | rfl, hne⟩
    · exact hx
    · exact absurd rfl hne
  · intro hx
    refine ⟨Or.inl hx, ?_⟩
    rintro rfl
    exact hmem hx

theorem mem_ce_restore_of_mem (ce E : List Str)
    (hsub : ∀ id ∈ E, id ∈ ce) (x : Str) :
    x ∈ jsSetUnion (ce.filter (fun id => id ∉ E)) E ↔ x ∈ ce := by
  rw [mem_jsSetUnion]
  simp only [List.mem_filter, decide_eq_true_eq]
  constructor
  · rintro (⟨hx, -⟩ | hE)
    · exact hx
    · exact hsub x hE
  · intro hx
    by_cases hE : x ∈ E
    · exact Or.inr hE
    · exact Or.inl ⟨hx, hE⟩

theorem mem_ce_restore_of_not_mem (ce E : List Str)
    (hdisj : ∀ id ∈ E, id ∉ ce) (x : Str) :
    x ∈ (jsSetUnion ce E).filter (fun id => id ∉ E) ↔ x ∈ ce := by
  simp only [List.mem_filter, mem_jsSetUnion, decide_eq_true_eq]
  constructor
  · rintro ⟨hx | hE, hne⟩
    · exact hx
    · exact absurd hE hne
  · intro hx
    refine ⟨Or.inl hx, fun hE => hdisj x hE hx⟩

theorem toggleDay_ok_inv (st : AppState) (dayId : Str) (st1 : AppState)
    (hok : handleToggleDayComplete st dayId = .ok st1) :
    st1.profile = st.profile ∧ st1.plan = st.plan ∧
    st1.progressHistory = st.progressHistory ∧
    st1.workoutLogs = st.workoutLogs ∧
    st1.loading = st.loading ∧ st1.error = st.error ∧
    st1.completedDays = (if dayId ∈ st.completedDays
       then st.completedDays.filter (fun id => id ≠ dayId)
       else st.completedDays ++ [dayId]) ∧
    ((∃ p wStr dStr dp, st.plan = some p ∧
        daySplit dayId = some (wStr, dStr) ∧
        resolveDay p wStr dStr = some dp ∧
        st1.completedExercises = (if dayId ∈ st.completedDays
          then st.completedExercises.filter
                 (fun id => id ∉ exerciseIdsOf dayId dp.exercises.length)
          else jsSetUnion st.completedExercises
                 (exerciseIdsOf dayId dp.exercises.length))) ∨
      (st1.completedExercises = st.completedExercises ∧
       (st.plan = none ∨ ∃ p wStr dStr, st.plan = some p ∧
          daySplit dayId = some (wStr, dStr) ∧
          resolveDay p wStr dStr = none))) := by
  cases hplan : st.plan with
  | none =>
    rw [toggleDay_spec_noplan st dayId hplan] at hok
    have e1 := Except.ok.inj hok
    refine ⟨?_, ?_, ?_, ?_, ?_, ?_, ?_, Or.inr ⟨?_, Or.inl rfl⟩⟩ <;>
      rw [← e1]
    exact hplan
  | some p =>
    cases hsplit : daySplit dayId with
    | none =>
      rw [toggleDay_raises st dayId p hplan hsplit] at hok
      exact absurd hok (by simp)
    | some pr =>
      obtain ⟨wStr, dStr⟩ := pr
      cases hres : resolveDay p wStr dStr with
      | none =>
        rw [toggleDay_spec_noday st dayId p wStr dStr hplan hsplit hres]
          at hok
        have e1 := Except.ok.inj hok
        refine ⟨?_, ?_, ?_, ?_, ?_, ?_, ?_,
            Or.inr ⟨?_, Or.inr ⟨p, wStr, dStr, rfl, rfl, hres⟩⟩⟩ <;>
          rw [← e1]
        exact hplan
      | some dp =>
        rw [toggleDay_spec st dayId p wStr dStr dp hplan hsplit hres] at hok
        have e1 := Except.ok.inj hok
        refine ⟨?_, ?_, ?_, ?_, ?_, ?_, ?_,
            Or.inl ⟨p, wStr, dStr, dp, rfl, rfl, hres, ?_⟩⟩ <;>
          rw [← e1]
        exact hplan

theorem toggleDay_restore (st : AppState) (dayId : Str) (st1 st2 : AppState)
    (h1 : handleToggleDayComplete st dayId = .ok st1)
    (h2 : handleToggleDayComplete st1 dayId = .ok st2)
    (hcons : dayStateConsistent st dayId) :
    sameContents st2.completedDays st.completedDays ∧
    sameContents st2.completedExercises st.completedExercises := by
  obtain ⟨-, hplan1, -, -, -, -, hcd1, hce1⟩ := toggleDay_ok_inv st dayId st1 h1
  obtain ⟨-, -, -, -, -, -, hcd2, hce2⟩ := toggleDay_ok_inv st1 dayId st2 h2
  by_cases hmem : dayId ∈ st.completedDays
  · rw [if_pos hmem] at hcd1
    have hmem1 : dayId ∉ st1.completedDays := by
      rw [hcd1]
      exact not_mem_filter_self _ _
    rw [if_neg hmem1, hcd1] at hcd2
    constructor
    · intro x
      rw [hcd2]
      exact mem_toggle_restore_of_mem _ _ hmem x
    · rcases hce1 with ⟨p, wStr, dStr, dp, hp, hsplit, hres, hce1⟩ |
        ⟨hce1, hwhy⟩
      · rw [if_pos hmem] at hce1
        have hsub := ((hcons p hp wStr dStr hsplit dp hres).1) hmem
        rcases hce2 with ⟨p2, wStr2, dStr2, dp2, hp2, hsplit2, hres2, hce2⟩ |
          ⟨hce2, hwhy2⟩
        · rw [hplan1, hp] at hp2
          obtain rfl : p = p2 := Option.some.inj hp2
          rw [hsplit] at hsplit2
          have hpair := Option.some.inj hsplit2
          injection hpair with hw hd
          subst hw
          subst hd
          rw [hres] at hres2
          obtain rfl : dp = dp2 := Option.some.inj hres2
          rw [if_neg hmem1, hce1] at hce2
          intro x
          rw [hce2]
          exact mem_ce_restore_of_mem _ _ hsub x
        · rcases hwhy2 with hnone | ⟨p2, wStr2, dStr2, hp2, hsplit2, hres2⟩
          · rw [hplan1, hp] at hnone
            exact absurd hnone (by simp)
          · rw [hplan1, hp] at hp2
            obtain rfl : p = p2 := Option.some.inj hp2
            rw [hsplit] at hsplit2
            have hpair := Option.some.inj hsplit2
            injection hpair with hw hd
            subst hw
            subst hd
            rw [hres] at hres2
            exact absurd hres2 (by simp)
      · rcases hce2 with ⟨p2, wStr2, dStr2, dp2, hp2, hsplit2, hres2, hce2⟩ |
          ⟨hce2, -⟩
        · rcases hwhy with hnone | ⟨p, wStr, dStr, hp, hsplit, hres⟩
          · rw [hplan1, hnone] at hp2
            exact absurd hp2 (by simp)
          · rw [hplan1, hp] at hp2
            obtain rfl : p = p2 := Option.some.inj hp2
            rw [hsplit] at hsplit2
            have hpair := Option.some.inj hsplit2
            injection hpair with hw hd
            subst hw
            subst hd
            rw [hres] at hres2
            exact absurd hres2 (by simp)
        · intro x
          rw [hce2, hce1]
  · rw [if_neg hmem] at hcd1
    have hmem1 : dayId ∈ st1.completedDays := by
      rw [hcd1]
      simp
    rw [if_pos hmem1, hcd1] at hcd2
    constructor
    · intro x
      rw [hcd2]
      exact mem_toggle_restore_of_not_mem _ _ hmem x
    · rcases hce1 with ⟨p, wStr, dStr, dp, hp, hsplit, hres, hce1⟩ |
        ⟨hce1, hwhy⟩
      · rw [if_neg hmem] at hce1
        have hdisj := ((hcons p hp wStr dStr hsplit dp hres).2) hmem
        rcases hce2 with ⟨p2, wStr2, dStr2, dp2, hp2, hsplit2, hres2, hce2⟩ |
          ⟨hce2, hwhy2⟩
        · rw [hplan1, hp] at hp2
          obtain rfl : p = p2 := Option.some.inj hp2
          rw [hsplit] at hsplit2
          have hpair := Option.some.inj hsplit2
          injection hpair with hw hd
          subst hw
          subst hd
          rw [hres] at hres2
          obtain rfl : dp = dp2 := Option.some.inj hres2
          rw [if_pos hmem1, hce1] at hce2
          intro x
          rw [hce2]
          exact mem_ce_restore_of_not_mem _ _ hdisj x
        · rcases hwhy2 with hnone | ⟨p2, wStr2, dStr2, hp2, hsplit2, hres2⟩
          · rw [hplan1, hp] at hnone
            exact absurd hnone (by simp)
          · rw [hplan1, hp] at hp2
            obtain rfl : p = p2 := Option.some.inj hp2
            rw [hsplit] at hsplit2
            have hpair := Option.some.inj hsplit2
            injection hpair with hw hd
            subst hw
            subst hd
            rw [hres] at hres2
            exact absurd hres2 (by simp)
      · rcases hce2 with ⟨p2, wStr2, dStr2, dp2, hp2, hsplit2, hres2, hce2⟩ |
          ⟨hce2, -⟩
        · rcases hwhy with hnone | ⟨p, wStr, dStr, hp, hsplit, hres⟩
          · rw [hplan1, hnone] at hp2
            exact absurd hp2 (by simp)
          · rw [hplan1, hp] at hp2
            obtain rfl : p = p2 := Option.some.inj hp2
            rw [hsplit] at hsplit2
            have hpair := Option.some.inj hsplit2
            injection hpair with hw hd
            subst hw
            subst hd
            rw [hres] at hres2
            exact absurd hres2 (by simp)
        · intro x
          rw [hce2, hce1]

/-- Claim C2, counterexample to the claim as stated: from the reachable
state where the single exercise of the day is complete but the day is
not, toggling the day twice does not restore `completedExercises` — the
identifier is gone afterwards (the cascade filter of the second toggle
removes it). -/
theorem C2_counterexample :
    str ("w0-d0-ex0") ∈ (mkState (some (mkPlan [mkEx (str ("A"))])) []
        [str ("w0-d0-ex0")]).completedExercises ∧
    ((handleToggleDayComplete (mkState (some (mkPlan [mkEx (str ("A"))])) []
        [str ("w0-d0-ex0")]) (str ("w0-d0"))).bind
      (fun st1 => handleToggleDayComplete st1 (str ("w0-d0")))).map
        (fun st2 => st2.completedExercises) = Except.ok [] := by
  constructor
  · decide
  · decide

/-- Claim C2 (amended): toggling a day twice restores the contents of
both completion sets provided the starting state is consistent for that
day (when the day resolves in the plan: a complete day has all its
exercise identifiers recorded, an incomplete day none of them — without
this proviso the round trip can drop or add exercise identifiers, as the
counterexample shows); in particular, when the day with N exercises
starts incomplete and none of its exercise identifiers are recorded, the
first toggle adds exactly the N distinct identifiers of its exercises
and the second toggle removes exactly those, restoring both sets. -/
theorem C2_toggle_day_involutive :
    (∀ st dayId st1 st2,
       handleToggleDayComplete st dayId = .ok st1 →
       handleToggleDayComplete st1 dayId = .ok st2 →
       dayStateConsistent st dayId →
       sameContents st2.completedDays st.completedDays ∧
       sameContents st2.completedExercises st.completedExercises) ∧
    (∀ st dayId p wStr dStr dp st1 st2,
       st.plan = some p → daySplit dayId = some (wStr, dStr) →
       resolveDay p wStr dStr = some dp →
       dayId ∉ st.completedDays →
       (∀ id ∈ exerciseIdsOf dayId dp.exercises.length,
          id ∉ st.completedExercises) →
       handleToggleDayComplete st dayId = .ok st1 →
       handleToggleDayComplete st1 dayId = .ok st2 →
       (exerciseIdsOf dayId dp.exercises.length).length
         = dp.exercises.length ∧
       (exerciseIdsOf dayId dp.exercises.length).Nodup ∧
       (∀ x, x ∈ st1.completedExercises ↔
          (x ∈ st.completedExercises ∨
           x ∈ exerciseIdsOf dayId dp.exercises.length)) ∧
       sameContents st2.completedExercises st.completedExercises ∧
       sameContents st2.completedDays st.completedDays) := by
  constructor
  · intro st dayId st1 st2 h1 h2 hcons
    exact toggleDay_restore st dayId st1 st2 h1 h2 hcons
  · intro st dayId p wStr dStr dp st1 st2 hp hsplit hres hday hdisj h1 h2
    have hcons : dayStateConsistent st dayId := by
      intro p2 hp2 wStr2 dStr2 hsplit2 dp2 hres2
      rw [hp] at hp2
      obtain rfl : p = p2 := Option.some.inj hp2
      rw [hsplit] at hsplit2
      have hpair := Option.some.inj hsplit2
      injection hpair with hw hd
      subst hw
      subst hd
      rw [hres] at hres2
      obtain rfl : dp = dp2 := Option.some.inj hres2
      exact ⟨fun hmem => absurd hmem hday, fun _ => hdisj⟩
    have hrestore := toggleDay_restore st dayId st1 st2 h1 h2 hcons
    refine ⟨exerciseIdsOf_length dayId dp.exercises.length,
            exerciseIdsOf_nodup dayId dp.exercises.length, ?_,
            hrestore.2, hrestore.1⟩
    rw [toggleDay_spec st dayId p wStr dStr dp hp hsplit hres,
        if_neg hday, if_neg hday] at h1
    have e1 : st1 = _ := (Except.ok.inj h1).symm
    intro x
    rw [e1]
    exact mem_jsSetUnion _ _ x

/-- Claim C2, witness: on the one-exercise fixture plan with both sets
empty (a consistent state), the double day toggle restores both sets and
the first toggle records exactly the one exercise identifier. -/
theorem C2_toggle_day_involutive_witness :
    (mkState (some (mkPlan [mkEx (str ("A"))])) [] []).plan
      = some (mkPlan [mkEx (str ("A"))]) ∧
    (str ("w0-d0-ex0")
      ∈ (⟨none, some (mkPlan [mkEx (str ("A"))]), [str ("w0-d0")],
          [str ("w0-d0-ex0")], [], [], false, none⟩ : AppState).completedExercises
      ↔ (str ("w0-d0-ex0")
           ∈ (mkState (some (mkPlan [mkEx (str ("A"))])) [] []).completedExercises
         ∨ str ("w0-d0-ex0") ∈ exerciseIdsOf (str ("w0-d0")) 1)) :=
  ⟨rfl,
   (C2_toggle_day_involutive.2 (mkState (some (mkPlan [mkEx (str ("A"))])) [] [])
     (str ("w0-d0")) (mkPlan [mkEx (str ("A"))]) (str ("w0")) (str ("d0"))
     (mkDay [mkEx (str ("A"))])
     ⟨none, some (mkPlan [mkEx (str ("A"))]), [str ("w0-d0")],
      [str ("w0-d0-ex0")], [], [], false, none⟩
     (mkState (some (mkPlan [mkEx (str ("A"))])) [] [])
     (by decide) (by decide) (by decide) (by decide) (by decide)
     (by decide) (by decide)).2.2.1 (str ("w0-d0-ex0"))⟩

/-! ## Claim C10: totality of the toggles on arbitrary identifier
strings. -/

theorem mem_toggleList (cd : List Str) (a x : Str) :
    (x ∈ (if a ∈ cd then cd.filter (fun id => id ≠ a) else cd ++ [a])) ↔
      (if a ∈ cd then x ∈ cd ∧ x ≠ a else x ∈ cd ∨ x = a) := by
  by_cases hmem : a ∈ cd <;> simp [hmem, List.mem_filter]

/-- Claim C10, counterexample to the claim as stated: with a plan loaded,
toggling a day identifier that contains no dash raises a TypeError (the
destructured `dStr` is undefined and `dStr.replace` throws), and so does
completing an exercise identifier whose day part contains no dash — the
operations are not total on arbitrary identifier strings. -/
theorem C10_counterexample :
    handleToggleDayComplete (mkState (some (mkPlan [mkEx (str ("A"))])) [] [])
        (str ("abc")) = Except.error JsError.typeError ∧
    handleToggleExerciseComplete
        (mkState (some (mkPlan [mkEx (str ("A"))])) [] [])
        (str ("w0-ex1")) = Except.error JsError.typeError := by
  constructor
  · decide
  · decide

/-- Claim C10 (amended): the two toggles are total on every identifier
whose day part splits on a dash (and always when no plan is loaded; the
exercise toggle is also always total on an un-completion): the call does
not raise, membership of the raw string is flipped in its completion
list, and when the referenced day cannot be resolved in the plan no
cascade occurs and no pending-completion signal is produced.  When a
plan is loaded and the day part has no dash, the day toggle — and the
exercise toggle on a completion — raises a TypeError instead. -/
theorem C10_toggle_totality :
    (∀ st dayId, st.plan = none →
       ∃ st1, handleToggleDayComplete st dayId = .ok st1 ∧
         (∀ x, x ∈ st1.completedDays ↔
            (if dayId ∈ st.completedDays
             then x ∈ st.completedDays ∧ x ≠ dayId
             else x ∈ st.completedDays ∨ x = dayId)) ∧
         st1.completedExercises = st.completedExercises) ∧
    (∀ st dayId wStr dStr, daySplit dayId = some (wStr, dStr) →
       ∃ st1, handleToggleDayComplete st dayId = .ok st1 ∧
         (∀ x, x ∈ st1.completedDays ↔
            (if dayId ∈ st.completedDays
             then x ∈ st.completedDays ∧ x ≠ dayId
             else x ∈ st.completedDays ∨ x = dayId)) ∧
         (∀ p, st.plan = some p → resolveDay p wStr dStr = none →
            st1.completedExercises = st.completedExercises)) ∧
    (∀ st exerciseId,
       (st.plan = none ∨ exerciseId ∈ st.completedExercises) →
       ∃ st1 sig,
         handleToggleExerciseComplete st exerciseId = .ok (st1, sig) ∧
         (∀ x, x ∈ st1.completedExercises ↔
            (if exerciseId ∈ st.completedExercises
             then x ∈ st.completedExercises ∧ x ≠ exerciseId
             else x ∈ st.completedExercises ∨ x = exerciseId)) ∧
         sig = none ∧ st1.completedDays = st.completedDays) ∧
    (∀ st exerciseId wStr dStr,
       daySplit (dayIdOf exerciseId) = some (wStr, dStr) →
       ∃ st1 sig,
         handleToggleExerciseComplete st exerciseId = .ok (st1, sig) ∧
         (∀ x, x ∈ st1.completedExercises ↔
            (if exerciseId ∈ st.completedExercises
             then x ∈ st.completedExercises ∧ x ≠ exerciseId
             else x ∈ st.completedExercises ∨ x = exerciseId)) ∧
         st1.completedDays = st.completedDays ∧
         (∀ p, st.plan = some p → resolveDay p wStr dStr = none →
            sig = none)) := by
  refine ⟨?_, ?_, ?_, ?_⟩
  · intro st dayId hplan
    refine ⟨_, toggleDay_spec_noplan st dayId hplan, ?_, rfl⟩
    intro x
    exact mem_toggleList st.completedDays dayId x
  · intro st dayId wStr dStr hsplit
    cases hplan : st.plan with
    | none =>
      refine ⟨_, toggleDay_spec_noplan st dayId hplan, ?_, ?_⟩
      · intro x
        exact mem_toggleList st.completedDays dayId x
      · intro p hp
        exact absurd hp (by simp)
    | some p =>
      cases hres : resolveDay p wStr dStr with
      | none =>
        refine ⟨_,
          toggleDay_spec_noday st dayId p wStr dStr hplan hsplit hres,
          ?_, fun _ _ _ => rfl⟩
        intro x
        exact mem_toggleList st.completedDays dayId x
      | some dp =>
        refine ⟨_, toggleDay_spec st dayId p wStr dStr dp hplan hsplit hres,
          ?_, ?_⟩
        · intro x
          exact mem_toggleList st.completedDays dayId x
        · intro p2 hp2 hres2
          obtain rfl : p = p2 := Option.some.inj hp2
          rw [hres] at hres2
          exact absurd hres2 (by simp)
  · intro st exerciseId hcase
    by_cases hmem : exerciseId ∈ st.completedExercises
    · refine ⟨_, _, toggleEx_spec_uncomplete st exerciseId hmem, ?_, rfl, rfl⟩
      intro x
      rw [if_pos hmem]
      simp [List.mem_filter]
    · have hplan : st.plan = none := by
        rcases hcase with hplan | hmem2
        · exact hplan
        · exact absurd hmem2 hmem
      refine ⟨_, _, toggleEx_spec_noplan st exerciseId hmem hplan, ?_, rfl, rfl⟩
      intro x
      rw [if_neg hmem]
      simp
  · intro st exerciseId wStr dStr hsplit
    by_cases hmem : exerciseId ∈ st.completedExercises
    · refine ⟨_, _, toggleEx_spec_uncomplete st exerciseId hmem, ?_, rfl,
        fun _ _ _ => rfl⟩
      intro x
      rw [if_pos hmem]
      simp [List.mem_filter]
    · cases hplan : st.plan with
      | none =>
        refine ⟨_, _, toggleEx_spec_noplan st exerciseId hmem hplan, ?_, rfl,
          ?_⟩
        · intro x
          rw [if_neg hmem]
          simp
        · intro p hp
          exact absurd hp (by simp)
      | some p =>
        cases hres : resolveDay p wStr dStr with
        | none =>
          refine ⟨_, _,
            toggleEx_spec_noday st exerciseId p wStr dStr hmem hplan hsplit
              hres, ?_, rfl, fun _ _ _ => rfl⟩
          intro x
          rw [if_neg hmem]
          simp
        | some dp =>
          refine ⟨_, _,
            toggleEx_spec_complete st exerciseId p wStr dStr dp hmem hplan
              hsplit hres, ?_, rfl, ?_⟩
          · intro x
            rw [if_neg hmem]
            simp
          · intro p2 hp2 hres2
            obtain rfl : p = p2 := Option.some.inj hp2
            rw [hres] at hres2
            exact absurd hres2 (by simp)

/-- Claim C10, witness: with a plan loaded, a malformed day identifier
that still contains a dash does not raise: the raw string is flipped
into `completedDays` and, the day being unresolvable, the completed
exercises are untouched. -/
theorem C10_toggle_totality_witness :
    daySplit (str ("w9-bogus")) = some (str ("w9"), str ("bogus")) ∧
    (∃ st1, handleToggleDayComplete
        (mkState (some (mkPlan [mkEx (str ("A"))])) [] [str ("keep")])
        (str ("w9-bogus")) = .ok st1 ∧
      (∀ x, x ∈ st1.completedDays ↔
         (if str ("w9-bogus") ∈ (mkState (some (mkPlan [mkEx (str ("A"))]))
              [] [str ("keep")]).completedDays
          then x ∈ (mkState (some (mkPlan [mkEx (str ("A"))])) []
              [str ("keep")]).completedDays ∧ x ≠ str ("w9-bogus")
          else x ∈ (mkState (some (mkPlan [mkEx (str ("A"))])) []
              [str ("keep")]).completedDays ∨ x = str ("w9-bogus"))) ∧
      (∀ p, (mkState (some (mkPlan [mkEx (str ("A"))])) []
           [str ("keep")]).plan = some p →
         resolveDay p (str ("w9")) (str ("bogus")) = none →
         st1.completedExercises = (mkState (some (mkPlan [mkEx (str ("A"))]))
           [] [str ("keep")]).completedExercises)) :=
  ⟨by decide,
   C10_toggle_totality.2.1
     (mkState (some (mkPlan [mkEx (str ("A"))])) [] [str ("keep")])
     (str ("w9-bogus")) (str ("w9")) (str ("bogus")) (by decide)⟩

/-! ## Claim C7: the progress ledger stays date-sorted and stable. -/

theorem filter_orderedInsert (k : Nat) (x : ProgressEntry) :
    ∀ l : List ProgressEntry,
      (List.orderedInsert dateLe x l).filter
          (fun e => dateKey e.date = k)
        = (x :: l).filter (fun e => dateKey e.date = k) := by
  intro l
  induction l with
  | nil => rfl
  | cons b l ih =>
    by_cases hle : dateLe x b
    · rw [List.orderedInsert, if_pos hle]
    · rw [List.orderedInsert, if_neg hle]
      have hlt : dateKey b.date < dateKey x.date := by
        unfold dateLe at hle
        omega
      by_cases hx : dateKey x.date = k
      · have hb : ¬ dateKey b.date = k := by omega
        simp [List.filter_cons, hb, hx, ih]
      · by_cases hb : dateKey b.date = k <;>
          simp [List.filter_cons, hb, hx, ih]

theorem filter_insertionSort (k : Nat) :
    ∀ l : List ProgressEntry,
      (List.insertionSort dateLe l).filter (fun e => dateKey e.date = k)
        = l.filter (fun e => dateKey e.date = k) := by
  intro l
  induction l with
  | nil => rfl
  | cons b l ih =>
    rw [List.insertionSort, filter_orderedInsert]
    simp [List.filter_cons, ih]

/-- Claim C7: after every add on the progress ledger the resulting
collection is exactly the prior collection plus the new entry (a
permutation of it), sorted ascending by date, and stable — for every
date key the entries holding that key appear in the same order as in the
prior collection followed by the new entry; in particular adding the
entry dated 2024-01-10 with weight 80 and then the entry dated
2024-01-05 with weight 82 yields the ledger in the order
(2024-01-05, 82), (2024-01-10, 80). -/
theorem C7_add_progress_sorted (st : AppState) (entry : ProgressEntry) :
    ((handleAddProgress st entry).progressHistory).Perm
        (st.progressHistory ++ [entry]) ∧
    List.Sorted dateLe (handleAddProgress st entry).progressHistory ∧
    (∀ k, ((handleAddProgress st entry).progressHistory).filter
          (fun e => dateKey e.date = k)
        = (st.progressHistory ++ [entry]).filter
          (fun e => dateKey e.date = k)) ∧
    (handleAddProgress (handleAddProgress (mkState none [] [])
          ⟨str ("2024-01-10"), 80⟩)
        ⟨str ("2024-01-05"), 82⟩).progressHistory
      = [⟨str ("2024-01-05"), 82⟩, ⟨str ("2024-01-10"), 80⟩] := by
  refine ⟨?_, ?_, ?_, ?_⟩
  · exact List.perm_insertionSort dateLe _
  · exact List.sorted_insertionSort dateLe _
  · intro k
    exact filter_insertionSort k _
  · decide

/-! ## Claim C6: the rest-duration parser. -/

theorem ws_not_digit (c : Char) (h : isWSChar c = true) : c.isDigit = false := by
  unfold isWSChar at h
  simp only [Bool.or_eq_true, beq_iff_eq] at h
  rcases h with ((rfl | rfl) | rfl) | rfl <;> decide

theorem takeWhile_append_of_all (p : Char → Bool) (l1 l2 : List Char)
    (h : ∀ a ∈ l1, p a = true) :
    (l1 ++ l2).takeWhile p = l1 ++ l2.takeWhile p := by
  induction l1 with
  | nil => rfl
  | cons c t ih =>
    rw [List.cons_append, List.takeWhile_cons,
        if_pos (h c (List.mem_cons_self c t)), List.cons_append,
        ih (fun a ha => h a (List.mem_cons_of_mem c ha))]

theorem dropWhile_append_of_all (p : Char → Bool) (l1 l2 : List Char)
    (h : ∀ a ∈ l1, p a = true) :
    (l1 ++ l2).dropWhile p = l2.dropWhile p := by
  induction l1 with
  | nil => rfl
  | cons c t ih =>
    rw [List.cons_append, List.dropWhile_cons,
        if_pos (h c (List.mem_cons_self c t)),
        ih (fun a ha => h a (List.mem_cons_of_mem c ha))]

theorem takeWhile_cons_false (p : Char → Bool) (c : Char) (t : List Char)
    (h : p c = false) : (c :: t).takeWhile p = [] := by
  rw [List.takeWhile_cons, if_neg (by simp [h])]

theorem dropWhile_cons_false (p : Char → Bool) (c : Char) (t : List Char)
    (h : p c = false) : (c :: t).dropWhile p = c :: t := by
  rw [List.dropWhile_cons, if_neg (by simp [h])]

theorem minuteUnitAt_head (rest : Str) (h : minuteUnitAt rest) :
    ∃ t, rest = 'm' :: t := by
  rcases h with ⟨t, heq⟩ | ⟨t, heq, -⟩
  · exact ⟨'i' :: 'n' :: t, heq⟩
  · exact ⟨t, heq⟩

theorem startsWithL_iff (pat : Str) :
    ∀ s, startsWithL pat s = true ↔ ∃ t, s = pat ++ t := by
  induction pat with
  | nil =>
    intro s
    constructor
    · intro _
      exact ⟨s, rfl⟩
    · intro _
      rfl
  | cons p ps ih =>
    intro s
    cases s with
    | nil =>
      constructor
      · intro h
        exact absurd h (by simp [startsWithL])
      · rintro ⟨t, ht⟩
        exact absurd ht (by simp)
    | cons c cs =>
      rw [startsWithL]
      simp only [Bool.and_eq_true, beq_iff_eq, ih cs]
      constructor
      · rintro ⟨rfl, t, rfl⟩
        exact ⟨t, rfl⟩
      · rintro ⟨t, ht⟩
        injection ht with h1 h2
        exact ⟨h1.symm, t, h2⟩

theorem unitTestB_iff (rest : Str) :
    unitTestB rest = true ↔ minuteUnitAt rest := by
  unfold unitTestB
  by_cases hsw : startsWithL (str ("min")) rest = true
  · rw [if_pos hsw]
    obtain ⟨t, rfl⟩ := (startsWithL_iff _ rest).mp hsw
    constructor
    · intro _
      exact Or.inl ⟨t, rfl⟩
    · intro _
      rfl
  · rw [if_neg hsw]
    have hnmin : ∀ t, rest ≠ 'm' :: 'i' :: 'n' :: t := by
      intro t ht
      exact hsw ((startsWithL_iff _ rest).mpr ⟨t, ht⟩)
    rcases rest with _ | ⟨c, t⟩
    · constructor
      · intro h
        exact absurd h (by simp)
      · intro h
        obtain ⟨t, ht⟩ := minuteUnitAt_head _ h
        exact absurd ht (by simp)
    · by_cases hc : c = 'm'
      · subst hc
        rcases t with _ | ⟨c2, t2⟩
        · constructor
          · intro _
            exact Or.inr ⟨[], rfl, Or.inl rfl⟩
          · intro _
            rfl
        · constructor
          · intro h
            simp at h
            exact Or.inr ⟨c2 :: t2, rfl, Or.inr ⟨c2, t2, rfl, h⟩⟩
          · intro h
            rcases h with ⟨t3, heq⟩ | ⟨t3, heq, hbound⟩
            · exact absurd heq (hnmin t3)
            · have ht3 : t3 = c2 :: t2 := by
                injection heq with h1 h2
                exact h2.symm
              subst ht3
              rcases hbound with h0 | ⟨c4, t4, heq2, hword⟩
              · exact absurd h0 (by simp)
              · have hc4 : c4 = c2 := by
                  injection heq2 with h3 h4
                  exact h3.symm
                subst hc4
                simp [hword]
      · constructor
        · intro h
          simp [hc] at h
        · intro h
          obtain ⟨t2, ht2⟩ := minuteUnitAt_head _ h
          injection ht2 with h1 h2
          exact absurd h1 hc

theorem takeWhile_digit_of_unit (ws rest : Str)
    (hws : ∀ c ∈ ws, isWSChar c = true) (hrest : ∃ t, rest = 'm' :: t) :
    (ws ++ rest).takeWhile Char.isDigit = [] ∧
    (ws ++ rest).dropWhile Char.isDigit = ws ++ rest := by
  cases ws with
  | nil =>
    obtain ⟨t, rfl⟩ := hrest
    rw [List.nil_append]
    exact ⟨takeWhile_cons_false _ _ _ (by decide),
           dropWhile_cons_false _ _ _ (by decide)⟩
  | cons w ws2 =>
    have hw := ws_not_digit w (hws w (List.mem_cons_self w ws2))
    rw [List.cons_append]
    exact ⟨takeWhile_cons_false _ _ _ hw, dropWhile_cons_false _ _ _ hw⟩

theorem dropWS_of_unit (ws rest : Str)
    (hws : ∀ c ∈ ws, isWSChar c = true) (hrest : ∃ t, rest = 'm' :: t) :
    (ws ++ rest).dropWhile isWSChar = rest := by
  rw [dropWhile_append_of_all _ _ _ hws]
  obtain ⟨t, rfl⟩ := hrest
  exact dropWhile_cons_false _ _ _ (by decide)

theorem minuteMatchAt_nil (n : Nat) : ¬ minuteMatchAt [] n := by
  rintro ⟨ds, ws, rest, heq, hne, -, -, -, -⟩
  have h2 := heq.symm
  rw [List.append_eq_nil, List.append_eq_nil] at h2
  exact hne h2.1.1

theorem headMin_some_iff (s : Str) (n : Nat) :
    headMin s = some n ↔ minuteMatchAt s n := by
  constructor
  · intro h
    cases s with
    | nil => exact absurd h (by simp [headMin])
    | cons c cs =>
      rw [headMin] at h
      by_cases hdig : c.isDigit
      · rw [if_pos hdig] at h
        by_cases hunit : unitTestB
            (((c :: cs).dropWhile Char.isDigit).dropWhile isWSChar) = true
        · rw [if_pos hunit] at h
          have hval := (Option.some.inj h).symm
          refine ⟨(c :: cs).takeWhile Char.isDigit,
                  ((c :: cs).dropWhile Char.isDigit).takeWhile isWSChar,
                  ((c :: cs).dropWhile Char.isDigit).dropWhile isWSChar,
                  ?_, ?_, ?_, ?_, ?_, hval⟩
          · rw [List.append_assoc,
                List.takeWhile_append_dropWhile isWSChar
                  ((c :: cs).dropWhile Char.isDigit),
                List.takeWhile_append_dropWhile Char.isDigit (c :: cs)]
          · rw [List.takeWhile_cons, if_pos (by simp [hdig])]
            simp
          · intro a ha
            exact List.mem_takeWhile_imp ha
          · intro a ha
            exact List.mem_takeWhile_imp ha
          · exact (unitTestB_iff _).mp hunit
        · rw [if_neg hunit] at h
          exact absurd h (by simp)
      · rw [if_neg hdig] at h
        exact absurd h (by simp)
  · rintro ⟨ds, ws, rest, heq, hne, hdigits, hws, hunit, hval⟩
    obtain ⟨d, ds2, rfl⟩ : ∃ d ds2, ds = d :: ds2 := by
      cases ds with
      | nil => exact absurd rfl hne
      | cons d ds2 => exact ⟨d, ds2, rfl⟩
    have hd : d.isDigit = true := hdigits d (List.mem_cons_self d ds2)
    have hrest : ∃ t, rest = 'm' :: t := minuteUnitAt_head rest hunit
    have hs : s = d :: (ds2 ++ (ws ++ rest)) := by
      rw [heq]
      simp
    rw [hs, headMin, if_pos hd]
    have htake : (d :: (ds2 ++ (ws ++ rest))).takeWhile Char.isDigit
        = d :: ds2 := by
      rw [List.takeWhile_cons, if_pos (by simp [hd]),
          takeWhile_append_of_all _ _ _
            (fun a ha => hdigits a (List.mem_cons_of_mem d ha)),
          (takeWhile_digit_of_unit ws rest hws hrest).1, List.append_nil]
    have hdrop : (d :: (ds2 ++ (ws ++ rest))).dropWhile Char.isDigit
        = ws ++ rest := by
      rw [List.dropWhile_cons, if_pos (by simp [hd]),
          dropWhile_append_of_all _ _ _
            (fun a ha => hdigits a (List.mem_cons_of_mem d ha)),
          (takeWhile_digit_of_unit ws rest hws hrest).2]
    rw [hdrop, dropWS_of_unit ws rest hws hrest,
        if_pos ((unitTestB_iff rest).mpr hunit), htake, hval]

theorem scanMin_some_iff : ∀ (s : Str) (n : Nat),
    scanMin s = some n ↔ minuteScanSpec s n := by
  intro s
  induction s with
  | nil =>
    intro n
    constructor
    · intro h
      exact absurd h (by simp [scanMin])
    · rintro ⟨k, hm, -⟩
      rw [List.drop_nil] at hm
      exact absurd hm (minuteMatchAt_nil n)
  | cons c cs ih =>
    intro n
    rw [scanMin]
    cases hh : headMin (c :: cs) with
    | some m =>
      constructor
      · intro h
        obtain rfl : m = n := Option.some.inj h
        refine ⟨0, ?_, ?_⟩
        · rw [List.drop_zero]
          exact (headMin_some_iff _ _).mp hh
        · intro k2 m2 h2
          exact absurd h2 (Nat.not_lt_zero k2)
      · rintro ⟨k, hm, hmin⟩
        cases k with
        | zero =>
          rw [List.drop_zero] at hm
          have := (headMin_some_iff _ _).mpr hm
          rw [hh] at this
          exact this
        | succ k2 =>
          exfalso
          refine hmin 0 m (Nat.succ_pos k2) ?_
          rw [List.drop_zero]
          exact (headMin_some_iff _ _).mp hh
    | none =>
      rw [ih n]
      unfold minuteScanSpec
      constructor
      · rintro ⟨k, hm, hmin⟩
        refine ⟨k + 1, ?_, ?_⟩
        · rw [List.drop_succ_cons]
          exact hm
        · intro k2 m h2
          cases k2 with
          | zero =>
            rw [List.drop_zero]
            intro hcon
            have := (headMin_some_iff _ _).mpr hcon
            rw [hh] at this
            exact absurd this (by simp)
          | succ k3 =>
            rw [List.drop_succ_cons]
            exact hmin k3 m (by omega)
      · rintro ⟨k, hm, hmin⟩
        cases k with
        | zero =>
          rw [List.drop_zero] at hm
          have := (headMin_some_iff _ _).mpr hm
          rw [hh] at this
          exact absurd this (by simp)
        | succ k2 =>
          rw [List.drop_succ_cons] at hm
          refine ⟨k2, hm, ?_⟩
          intro k3 m h3
          have := hmin (k3 + 1) m (by omega)
          rw [List.drop_succ_cons] at this
          exact this

theorem scanMin_none_iff : ∀ (s : Str),
    scanMin s = none ↔ ∀ k m, ¬ minuteMatchAt (s.drop k) m := by
  intro s
  induction s with
  | nil =>
    constructor
    · intro _ k m hm
      rw [List.drop_nil] at hm
      exact minuteMatchAt_nil m hm
    · intro _
      rfl
  | cons c cs ih =>
    rw [scanMin]
    cases hh : headMin (c :: cs) with
    | some m =>
      constructor
      · intro h
        exact absurd h (by simp)
      · intro hall
        exfalso
        refine hall 0 m ?_
        rw [List.drop_zero]
        exact (headMin_some_iff _ _).mp hh
    | none =>
      rw [ih]
      constructor
      · intro hall k m
        cases k with
        | zero =>
          rw [List.drop_zero]
          intro hcon
          have := (headMin_some_iff _ _).mpr hcon
          rw [hh] at this
          exact absurd this (by simp)
        | succ k2 =>
          rw [List.drop_succ_cons]
          exact hall k2 m
      · intro hall k m
        have := hall (k + 1) m
        rw [List.drop_succ_cons] at this
        exact this

theorem dropWhile_head_false (p : Char → Bool) :
    ∀ (l : Str) (x : Char) (t : Str), l.dropWhile p = x :: t → p x = false := by
  intro l
  induction l with
  | nil =>
    intro x t h
    exact absurd h (by simp)
  | cons c cs ih =>
    intro x t h
    by_cases hc : p c = true
    · rw [List.dropWhile_cons, if_pos hc] at h
      exact ih x t h
    · rw [dropWhile_cons_false _ _ _ (by simpa using hc)] at h
      injection h with h1 h2
      subst h1
      simpa using hc

theorem intMatchAt_nil (n : Nat) : ¬ intMatchAt [] n := by
  rintro ⟨ds, rest, heq, hne, -, -, -⟩
  have h2 := heq.symm
  rw [List.append_eq_nil] at h2
  exact hne h2.1

theorem headInt_some_iff (s : Str) (n : Nat) :
    headInt s = some n ↔ intMatchAt s n := by
  constructor
  · intro h
    cases s with
    | nil => exact absurd h (by simp [headInt])
    | cons c cs =>
      rw [headInt] at h
      by_cases hdig : c.isDigit
      · rw [if_pos hdig] at h
        have hval := (Option.some.inj h).symm
        refine ⟨(c :: cs).takeWhile Char.isDigit,
                (c :: cs).dropWhile Char.isDigit,
                (List.takeWhile_append_dropWhile Char.isDigit (c :: cs)).symm,
                ?_, ?_, ?_, hval⟩
        · rw [List.takeWhile_cons, if_pos (by simp [hdig])]
          simp
        · intro a ha
          exact List.mem_takeWhile_imp ha
        · cases hdw : (c :: cs).dropWhile Char.isDigit with
          | nil => exact Or.inl rfl
          | cons x t =>
            exact Or.inr ⟨x, t, rfl, dropWhile_head_false _ _ _ _ hdw⟩
      · rw [if_neg hdig] at h
        exact absurd h (by simp)
  · rintro ⟨ds, rest, heq, hne, hdigits, hrestc, hval⟩
    obtain ⟨d, ds2, rfl⟩ : ∃ d ds2, ds = d :: ds2 := by
      cases ds with
      | nil => exact absurd rfl hne
      | cons d ds2 => exact ⟨d, ds2, rfl⟩
    have hd : d.isDigit = true := hdigits d (List.mem_cons_self d ds2)
    have htail : rest.takeWhile Char.isDigit = [] := by
      rcases hrestc with rfl | ⟨x, t, rfl, hx⟩
      · rfl
      · exact takeWhile_cons_false _ _ _ hx
    have hs : s = d :: (ds2 ++ rest) := by
      rw [heq]
      simp
    rw [hs, headInt, if_pos hd]
    rw [List.takeWhile_cons, if_pos (by simp [hd]),
        takeWhile_append_of_all _ _ _
          (fun a ha => hdigits a (List.mem_cons_of_mem d ha)),
        htail, List.append_nil, hval]

theorem scanInt_some_iff : ∀ (s : Str) (n : Nat),
    scanInt s = some n ↔ intScanSpec s n := by
  intro s
  induction s with
  | nil =>
    intro n
    constructor
    · intro h
      exact absurd h (by simp [scanInt])
    · rintro ⟨k, hm, -⟩
      rw [List.drop_nil] at hm
      exact absurd hm (intMatchAt_nil n)
  | cons c cs ih =>
    intro n
    rw [scanInt]
    cases hh : headInt (c :: cs) with
    | some m =>
      constructor
      · intro h
        obtain rfl : m = n := Option.some.inj h
        refine ⟨0, ?_, ?_⟩
        · rw [List.drop_zero]
          exact (headInt_some_iff _ _).mp hh
        · intro k2 m2 h2
          exact absurd h2 (Nat.not_lt_zero k2)
      · rintro ⟨k, hm, hmin⟩
        cases k with
        | zero =>
          rw [List.drop_zero] at hm
          have := (headInt_some_iff _ _).mpr hm
          rw [hh] at this
          exact this
        | succ k2 =>
          exfalso
          refine hmin 0 m (Nat.succ_pos k2) ?_
          rw [List.drop_zero]
          exact (headInt_some_iff _ _).mp hh
    | none =>
      rw [ih n]
      unfold intScanSpec
      constructor
      · rintro ⟨k, hm, hmin⟩
        refine ⟨k + 1, ?_, ?_⟩
        · rw [List.drop_succ_cons]
          exact hm
        · intro k2 m h2
          cases k2 with
          | zero =>
            rw [List.drop_zero]
            intro hcon
            have := (headInt_some_iff _ _).mpr hcon
            rw [hh] at this
            exact absurd this (by simp)
          | succ k3 =>
            rw [List.drop_succ_cons]
            exact hmin k3 m (by omega)
      · rintro ⟨k, hm, hmin⟩
        cases k with
        | zero =>
          rw [List.drop_zero] at hm
          have := (headInt_some_iff _ _).mpr hm
          rw [hh] at this
          exact absurd this (by simp)
        | succ k2 =>
          rw [List.drop_succ_cons] at hm
          refine ⟨k2, hm, ?_⟩
          intro k3 m h3
          have := hmin (k3 + 1) m (by omega)
          rw [List.drop_succ_cons] at this
          exact this

theorem scanInt_none_of_no_digit (s : Str)
    (h : ∀ c ∈ s, c.isDigit = false) : scanInt s = none := by
  induction s with
  | nil => rfl
  | cons c cs ih =>
    rw [scanInt]
    have hc := h c (List.mem_cons_self c cs)
    rw [show headInt (c :: cs) = none by rw [headInt, if_neg (by simp [hc])]]
    exact ih (fun a ha => h a (List.mem_cons_of_mem c ha))

theorem minuteMatchAt_has_digit (s : Str) (n : Nat) (h : minuteMatchAt s n) :
    ∃ c ∈ s, c.isDigit = true := by
  obtain ⟨ds, ws, rest, heq, hne, hdigits, -, -, -⟩ := h
  obtain ⟨d, ds2, rfl⟩ : ∃ d ds2, ds = d :: ds2 := by
    cases ds with
    | nil => exact absurd rfl hne
    | cons d ds2 => exact ⟨d, ds2, rfl⟩
  refine ⟨d, ?_, hdigits d (List.mem_cons_self d ds2)⟩
  rw [heq]
  simp

theorem scanMin_none_of_no_digit (s : Str)
    (h : ∀ c ∈ s, c.isDigit = false) : scanMin s = none := by
  rw [scanMin_none_iff]
  intro k m hm
  obtain ⟨c, hc, hcd⟩ := minuteMatchAt_has_digit _ m hm
  have := h c (List.drop_subset k s hc)
  rw [this] at hcd
  exact absurd hcd (by simp)

/-- Claim C6: the rest-duration parser maps a string whose lowercasing
contains a number followed by a minute unit (the literal min, or a bare
m at a word boundary) to the leftmost such number times 60 seconds;
otherwise it maps a string containing an embedded integer to the
leftmost such integer, in seconds; otherwise — in particular when the
string holds no digit at all — it returns 60.  In particular 90s parses
to 90, 2 min to 120, the empty string to 60 and abc to 60. -/
theorem C6_parse_rest_time :
    parseRestTime (str ("90s")) = 90 ∧
    parseRestTime (str ("2 min")) = 120 ∧
    parseRestTime (str ("")) = 60 ∧
    parseRestTime (str ("abc")) = 60 ∧
    (∀ s n, minuteScanSpec (toLowerStr s) n → parseRestTime s = n * 60) ∧
    (∀ s n, (∀ k m, ¬ minuteMatchAt ((toLowerStr s).drop k) m) →
       intScanSpec (toLowerStr s) n → parseRestTime s = n) ∧
    (∀ s, (∀ c ∈ toLowerStr s, c.isDigit = false) → parseRestTime s = 60) := by
  refine ⟨by decide, by decide, by decide, by decide, ?_, ?_, ?_⟩
  · intro s n hspec
    have hs : s ≠ [] := by
      rintro rfl
      obtain ⟨k, hm, -⟩ := hspec
      rw [show toLowerStr [] = [] from rfl, List.drop_nil] at hm
      exact minuteMatchAt_nil n hm
    unfold parseRestTime
    rw [if_neg hs, (scanMin_some_iff _ n).mpr hspec]
  · intro s n hnomin hspec
    have hs : s ≠ [] := by
      rintro rfl
      obtain ⟨k, hm, -⟩ := hspec
      rw [show toLowerStr [] = [] from rfl, List.drop_nil] at hm
      exact intMatchAt_nil n hm
    unfold parseRestTime
    rw [if_neg hs, (scanMin_none_iff _).mpr hnomin,
        (scanInt_some_iff _ n).mpr hspec]
  · intro s hnod
    rcases em (s = []) with rfl | hs
    · rfl
    · unfold parseRestTime
      rw [if_neg hs, scanMin_none_of_no_digit _ hnod,
          scanInt_none_of_no_digit _ hnod]

/-- Claim C6, witness: the lowercasing of abc holds no digit, and the
parser returns the 60-second default on it. -/
theorem C6_parse_rest_time_witness :
    (∀ c ∈ toLowerStr (str ("abc")), c.isDigit = false) ∧
    parseRestTime (str ("abc")) = 60 :=
  ⟨by decide, C6_parse_rest_time.2.2.2.2.2.2 (str ("abc")) (by decide)⟩
